import Mathlib

/-!
Verification of the construction-safety-expert ingestion pipeline.

Strings are modelled as `List Char` (Python `str` is a sequence of code
points).  Python string operations (`split`, `strip`, `lower`, `join`,
regular-expression helpers) are embedded as executable Lean functions below;
each definition carries a comment naming the Python source it translates.
-/

/-- Python `str` modelled as a list of characters. -/
abbrev Str := List Char

/-- The Python whitespace class used by `str.strip` / `str.split` / `\s`:
space, tab, newline, carriage return, vertical tab, form feed. -/
def isWS (c : Char) : Bool :=
  c = ' ' || c = '\t' || c = '\n' || c = '\r' || c = Char.ofNat 11 || c = Char.ofNat 12

/-- Regex word character `\w` (ASCII): letters, digits, underscore. -/
def isWordChar (c : Char) : Bool :=
  c.isAlpha || c.isDigit || c = '_'

/-- `str.lower()` (ASCII case mapping). -/
def lowerStr (s : Str) : Str := s.map Char.toLower

/-- Drop trailing characters satisfying the Python whitespace test
(the tail half of `str.strip`). -/
def dropTrailWs : Str → Str
  | [] => []
  | c :: rest =>
    if dropTrailWs rest = [] && isWS c then [] else c :: dropTrailWs rest

/-- Python `str.strip()`: remove leading and trailing whitespace. -/
def strip (s : Str) : Str := dropTrailWs (s.dropWhile (fun c => isWS c))

/-- Accumulator pass of `splitWs`; `acc` is the current word, reversed. -/
def splitWsAux : Str → Str → List Str
  | [], acc => if acc = [] then [] else [acc.reverse]
  | c :: rest, acc =>
    if isWS c then
      if acc = [] then splitWsAux rest [] else acc.reverse :: splitWsAux rest []
    else splitWsAux rest (c :: acc)

/-- Python `str.split()` with no separator: split on whitespace runs,
producing no empty tokens. -/
def splitWs (s : Str) : List Str := splitWsAux s []

/-- Prepend a character onto the first piece of a split result. -/
def consHead (c : Char) : List Str → List Str
  | [] => [[c]]
  | h :: t => (c :: h) :: t

/-- Python `text.split('\n\n')`: split on non-overlapping occurrences of a
blank-line separator, scanning left to right, keeping empty pieces. -/
def splitParas : Str → List Str
  | [] => [[]]
  | [c] => [[c]]
  | c :: d :: rest =>
    if c = '\n' && d = '\n' then [] :: splitParas rest
    else consHead c (splitParas (d :: rest))

/-- Python `text.split('\n')`. -/
def splitLines : Str → List Str
  | [] => [[]]
  | c :: rest =>
    if c = '\n' then [] :: splitLines rest else consHead c (splitLines rest)

/-- The separator `"\n\n"`. -/
def nlnl : Str := ['\n', '\n']

/-- Python `'\n\n'.join(paras)`. -/
def joinParas : List Str → Str
  | [] => []
  | [p] => p
  | p :: ps => p ++ nlnl ++ joinParas ps

/-- Python `'\n'.join(lines)`. -/
def joinLines : List Str → Str
  | [] => []
  | [l] => l
  | l :: ls => l ++ '\n' :: joinLines ls

/-- Python `' '.join(xs)`. -/
def joinSp : List Str → Str
  | [] => []
  | [x] => x
  | x :: xs => x ++ ' ' :: joinSp xs

/-- Python `needle in haystack` / `re.search` on a literal pattern:
`hasSub w s` holds when `w` occurs contiguously in `s`. -/
def hasSub (w : Str) : Str → Bool
  | [] => w.isPrefixOf []
  | c :: rest => w.isPrefixOf (c :: rest) || hasSub w rest

-- basic sanity examples (evaluated by the kernel)
example : splitParas ('a' :: '\n' :: '\n' :: ['b']) = [['a'], ['b']] := by decide
example : splitParas ('\n' :: '\n' :: ['\n']) = [[], ['\n']] := by decide
example : strip (' ' :: 'a' :: ['\t']) = ['a'] := by decide
example : splitWs (' ' :: 'a' :: ' ' :: ' ' :: 'b' :: [' ']) = [['a'], ['b']] := by decide
example : hasSub ['w', 'w'] ['a', 'w', 'w', 'b'] = true := by decide

/-! ### Lemmas about `hasSub`, `strip` and the splitters -/

theorem hasSub_cons (w : Str) (c : Char) (s : Str) :
    hasSub w (c :: s) = (w.isPrefixOf (c :: s) || hasSub w s) := rfl

theorem isPrefixOf_append {w : Str} : ∀ {b : Str} (t : Str),
    w.isPrefixOf b = true → w.isPrefixOf (b ++ t) = true := by
  induction w with
  | nil => intro b t _; simp [List.isPrefixOf]
  | cons a w ih =>
    intro b t h
    cases b with
    | nil => simp [List.isPrefixOf] at h
    | cons x b =>
      simp only [List.isPrefixOf, Bool.and_eq_true] at h ⊢
      exact ⟨h.1, ih t h.2⟩

theorem hasSub_append_left {w s : Str} (t : Str) (h : hasSub w s = true) :
    hasSub w (s ++ t) = true := by
  induction s with
  | nil =>
    cases w with
    | nil => cases t <;> simp [hasSub, List.isPrefixOf]
    | cons a w => simp [hasSub, List.isPrefixOf] at h
  | cons c s ih =>
    rw [List.cons_append, hasSub_cons, Bool.or_eq_true]
    rw [hasSub_cons, Bool.or_eq_true] at h
    rcases h with h | h
    · rw [← List.cons_append]
      exact Or.inl (isPrefixOf_append t h)
    · exact Or.inr (ih h)

theorem hasSub_append_right {w : Str} (s : Str) {t : Str} (h : hasSub w t = true) :
    hasSub w (s ++ t) = true := by
  induction s with
  | nil => simpa using h
  | cons c s ih =>
    rw [List.cons_append, hasSub_cons, Bool.or_eq_true]
    exact Or.inr ih

/-- `dropTrailWs s` is a prefix of `s` (witnessed by the dropped tail). -/
theorem dropTrailWs_append : ∀ s : Str, ∃ t, s = dropTrailWs s ++ t := by
  intro s
  induction s with
  | nil => exact ⟨[], rfl⟩
  | cons c rest ih =>
    rw [dropTrailWs]
    by_cases h : (dropTrailWs rest = [] && isWS c) = true
    · exact ⟨c :: rest, by rw [if_pos h]; rfl⟩
    · rcases ih with ⟨t, ht⟩
      refine ⟨t, ?_⟩
      rw [if_neg h, List.cons_append]
      exact congrArg (c :: ·) ht

theorem hasSub_mono_dropTrailWs {w s : Str} (h : hasSub w (dropTrailWs s) = true) :
    hasSub w s = true := by
  rcases dropTrailWs_append s with ⟨t, ht⟩
  rw [ht]; exact hasSub_append_left t h

theorem hasSub_mono_dropWhile {w s : Str} {p : Char → Bool}
    (h : hasSub w (s.dropWhile p) = true) : hasSub w s = true := by
  have hs := List.takeWhile_append_dropWhile (p := p) (l := s)
  calc hasSub w s = hasSub w (s.takeWhile p ++ s.dropWhile p) := by rw [hs]
    _ = true := hasSub_append_right _ h

theorem hasSub_mono_strip {w s : Str} (h : hasSub w (strip s) = true) :
    hasSub w s = true :=
  hasSub_mono_dropWhile (hasSub_mono_dropTrailWs h)

theorem dropTrailWs_getLast? {s : Str} {c : Char}
    (h : (dropTrailWs s).getLast? = some c) : isWS c = false := by
  induction s with
  | nil => simp [dropTrailWs] at h
  | cons a rest ih =>
    rw [dropTrailWs] at h
    by_cases hc : (dropTrailWs rest = [] && isWS a) = true
    · rw [if_pos hc] at h; simp at h
    · rw [if_neg hc] at h
      rcases hrest : dropTrailWs rest with _ | ⟨b, t⟩
      · rw [hrest] at h
        simp only [List.getLast?_singleton, Option.some.injEq] at h
        subst h
        simp only [hrest, Bool.and_eq_true, not_and] at hc
        simpa using hc rfl
      · rw [hrest] at h
        rw [List.getLast?_cons_cons] at h
        exact ih (by rw [hrest]; exact h)

theorem dropWhile_head? {s : Str} {p : Char → Bool} {c : Char}
    (h : (s.dropWhile p).head? = some c) : p c = false := by
  induction s with
  | nil => simp at h
  | cons a rest ih =>
    rw [List.dropWhile_cons] at h
    by_cases hp : p a = true
    · rw [if_pos hp] at h; exact ih h
    · rw [if_neg hp] at h
      simp only [List.head?_cons, Option.some.injEq] at h
      subst h
      simpa using hp

theorem dropTrailWs_head? {s : Str} {c : Char}
    (h : (dropTrailWs s).head? = some c) : s.head? = some c := by
  rcases dropTrailWs_append s with ⟨t, ht⟩
  rcases hd : dropTrailWs s with _ | ⟨b, u⟩
  · rw [hd] at h; simp at h
  · rw [hd] at h
    simp only [List.head?_cons, Option.some.injEq] at h
    subst h
    rw [ht, hd]
    rfl

theorem strip_head? {s : Str} {c : Char} (h : (strip s).head? = some c) :
    isWS c = false :=
  dropWhile_head? (dropTrailWs_head? h)

theorem strip_getLast? {s : Str} {c : Char} (h : (strip s).getLast? = some c) :
    isWS c = false :=
  dropTrailWs_getLast? h

theorem dropWhile_eq_self {s : Str} {p : Char → Bool}
    (h : ∀ c, s.head? = some c → p c = false) : s.dropWhile p = s := by
  cases s with
  | nil => rfl
  | cons a rest =>
    rw [List.dropWhile_cons, if_neg]
    simp [h a rfl]

theorem dropTrailWs_eq_self : ∀ {s : Str},
    (∀ c, s.getLast? = some c → isWS c = false) → dropTrailWs s = s := by
  intro s
  induction s with
  | nil => intro _; rfl
  | cons a rest ih =>
    intro h
    rw [dropTrailWs]
    rcases hr : rest with _ | ⟨b, t⟩
    · have : isWS a = false := h a (by rw [hr]; rfl)
      simp [dropTrailWs, hr, this]
    · rw [← hr]
      have hrest : dropTrailWs rest = rest := by
        apply ih
        intro c hc
        apply h
        rw [hr] at hc ⊢
        rw [List.getLast?_cons_cons]
        exact hc
      rw [hrest, if_neg (by simp [hr])]

theorem strip_eq_self {s : Str}
    (hh : ∀ c, s.head? = some c → isWS c = false)
    (hl : ∀ c, s.getLast? = some c → isWS c = false) : strip s = s := by
  unfold strip
  rw [dropWhile_eq_self hh, dropTrailWs_eq_self hl]

theorem strip_strip (s : Str) : strip (strip s) = strip s :=
  strip_eq_self (fun _ h => strip_head? h) (fun _ h => strip_getLast? h)

theorem dropTrailWs_length_le (s : Str) : (dropTrailWs s).length ≤ s.length := by
  rcases dropTrailWs_append s with ⟨t, ht⟩
  conv_rhs => rw [ht]
  simp

theorem strip_length_le (s : Str) : (strip s).length ≤ s.length :=
  le_trans (dropTrailWs_length_le _) (List.dropWhile_sublist _).length_le

theorem isPrefixOf_nil_left_eq (r : Str) : List.isPrefixOf ([] : Str) r = true := by
  cases r <;> rfl

theorem isPrefixOf_nlnl_cons2 (c d : Char) (r : Str) :
    nlnl.isPrefixOf (c :: d :: r) = (decide (c = '\n') && decide (d = '\n')) := by
  show (('\n' == c) && (('\n' == d) && List.isPrefixOf ([] : Str) r)) = _
  rw [isPrefixOf_nil_left_eq, Bool.and_true]
  by_cases hc : c = '\n' <;> by_cases hd : d = '\n' <;>
    simp [hc, hd, beq_eq_false_iff_ne, Ne.symm]

theorem isPrefixOf_nlnl_single (c : Char) : nlnl.isPrefixOf [c] = false := by
  show (('\n' == c) && List.isPrefixOf ['\n'] ([] : Str)) = false
  simp [List.isPrefixOf]

theorem splitParas_ne_nil (s : Str) : splitParas s ≠ [] := by
  induction s using splitParas.induct with
  | case1 => simp [splitParas]
  | case2 c => simp [splitParas]
  | case3 c d rest h ih => simp [splitParas, h]
  | case4 c d rest h ih =>
    simp only [splitParas, h, if_neg]
    cases hsp : splitParas (d :: rest) with
    | nil => exact absurd hsp ih
    | cons a b => simp [consHead]

theorem splitParas_first_nil : ∀ {s : Str} {t : List Str},
    splitParas s = [] :: t → s = [] ∨ s.head? = some '\n' := by
  intro s t h
  match s with
  | [] => exact Or.inl rfl
  | [c] => simp [splitParas] at h
  | c :: d :: rest =>
    by_cases hc : (c = '\n' && d = '\n') = true
    · simp only [Bool.and_eq_true, decide_eq_true_eq] at hc
      exact Or.inr (by rw [hc.1]; rfl)
    · rw [splitParas, if_neg hc] at h
      cases hsp : splitParas (d :: rest) with
      | nil => exact absurd hsp (splitParas_ne_nil _)
      | cons a b => rw [hsp] at h; simp [consHead] at h

theorem splitParas_first_head : ∀ {s : Str} {h0 : Str} {t : List Str},
    splitParas s = h0 :: t → h0 ≠ [] → h0.head? = s.head? := by
  intro s h0 t h hne
  match s with
  | [] =>
    simp only [splitParas] at h
    cases h; simp_all
  | [c] =>
    simp only [splitParas] at h
    cases h; rfl
  | c :: d :: rest =>
    by_cases hc : (c = '\n' && d = '\n') = true
    · rw [splitParas, if_pos hc] at h
      cases h; simp_all
    · rw [splitParas, if_neg hc] at h
      cases hsp : splitParas (d :: rest) with
      | nil => exact absurd hsp (splitParas_ne_nil _)
      | cons a b =>
        rw [hsp] at h
        simp only [consHead] at h
        cases h; rfl

/-- Every piece produced by `splitParas` is free of the separator. -/
theorem splitParas_no_sep {s : Str} : ∀ p ∈ splitParas s, hasSub nlnl p = false := by
  induction s using splitParas.induct with
  | case1 =>
    intro p hp
    simp only [splitParas, List.mem_singleton] at hp
    subst hp; rfl
  | case2 c =>
    intro p hp
    simp only [splitParas, List.mem_singleton] at hp
    subst hp
    simp [hasSub, nlnl, List.isPrefixOf]
  | case3 c d rest h ih =>
    intro p hp
    rw [splitParas, if_pos h] at hp
    rcases List.mem_cons.mp hp with hp | hp
    · subst hp; rfl
    · exact ih p hp
  | case4 c d rest h ih =>
    intro p hp
    rw [splitParas, if_neg h] at hp
    cases hsp : splitParas (d :: rest) with
    | nil => exact absurd hsp (splitParas_ne_nil _)
    | cons h0 t0 =>
      rw [hsp] at hp
      simp only [consHead] at hp
      rcases List.mem_cons.mp hp with hp | hp
      · subst hp
        rw [hasSub_cons]
        have hh0 : hasSub nlnl h0 = false := ih h0 (by rw [hsp]; exact List.mem_cons_self _ _)
        rw [hh0, Bool.or_false]
        cases hh : h0 with
        | nil => exact isPrefixOf_nlnl_single c
        | cons e h0' =>
          have hne : h0 ≠ [] := by rw [hh]; simp
          have hface : h0.head? = some d := by
            rw [splitParas_first_head hsp hne]; rfl
          rw [hh] at hface
          simp only [List.head?_cons, Option.some.injEq] at hface
          rw [hface, isPrefixOf_nlnl_cons2]
          simpa using h
      · exact ih p (by rw [hsp]; exact List.mem_cons_of_mem _ hp)

/-- No piece other than the last ends with a newline
(the scan would have cut one position earlier). -/
theorem splitParas_dropLast_getLast {s : Str} :
    ∀ p ∈ (splitParas s).dropLast, p.getLast? ≠ some '\n' := by
  induction s using splitParas.induct with
  | case1 => intro p hp; simp [splitParas] at hp
  | case2 c => intro p hp; simp [splitParas] at hp
  | case3 c d rest h ih =>
    intro p hp
    rw [splitParas, if_pos h] at hp
    cases hsp : splitParas rest with
    | nil => exact absurd hsp (splitParas_ne_nil _)
    | cons h1 t1 =>
      rw [hsp] at hp
      rw [show (([] : Str) :: h1 :: t1).dropLast = [] :: (h1 :: t1).dropLast from rfl] at hp
      rcases List.mem_cons.mp hp with hp | hp
      · subst hp; simp
      · exact ih p (by rw [hsp]; exact hp)
  | case4 c d rest h ih =>
    intro p hp
    rw [splitParas, if_neg h] at hp
    cases hsp : splitParas (d :: rest) with
    | nil => exact absurd hsp (splitParas_ne_nil _)
    | cons h0 t0 =>
      rw [hsp] at hp
      simp only [consHead] at hp
      cases ht0 : t0 with
      | nil => rw [ht0] at hp; simp at hp
      | cons x t0' =>
        rw [ht0] at hp
        rw [show ((c :: h0) :: x :: t0').dropLast = (c :: h0) :: (x :: t0').dropLast from rfl] at hp
        rcases List.mem_cons.mp hp with hp | hp
        · subst hp
          cases hh : h0 with
          | nil =>
            -- first piece of `splitParas (d :: rest)` is empty, so `d = '\n'`,
            -- hence `c ≠ '\n'` by the branch condition
            have hfn : splitParas (d :: rest) = [] :: t0 := by rw [hsp, hh]
            have hd : d = '\n' := by
              rcases splitParas_first_nil hfn with h' | h'
              · exact absurd h' (by simp)
              · simpa using h'
            have hcn : ¬ c = '\n' := by
              intro hc
              exact h (by simp [hc, hd])
            simpa using hcn
          | cons e h0' =>
            rw [List.getLast?_cons_cons]
            have hmem : h0 ∈ (splitParas (d :: rest)).dropLast := by
              rw [hsp, ht0,
                show (h0 :: x :: t0').dropLast = h0 :: (x :: t0').dropLast from rfl]
              exact List.mem_cons_self _ _
            exact hh ▸ ih _ hmem
        · apply ih
          rw [hsp, ht0]
          exact List.mem_cons_of_mem _ hp

/-- A separator-free string is a single piece. -/
theorem splitParas_single {p : Str} (hp : hasSub nlnl p = false) :
    splitParas p = [p] := by
  induction p using splitParas.induct with
  | case1 => rfl
  | case2 c => rfl
  | case3 c d rest h ih =>
    exfalso
    simp only [Bool.and_eq_true, decide_eq_true_eq] at h
    rw [h.1, h.2] at hp
    rw [hasSub_cons] at hp
    simp [nlnl, List.isPrefixOf] at hp
  | case4 c d rest h ih =>
    rw [hasSub_cons, Bool.or_eq_false_iff] at hp
    rw [splitParas, if_neg h, ih hp.2]
    rfl

/-- Gluing lemma: splitting `a ++ "\n\n" ++ b` cuts exactly at the explicit
separator, provided `a` is separator-free and does not end in a newline. -/
theorem splitParas_glue : ∀ {a : Str}, hasSub nlnl a = false →
    a.getLast? ≠ some '\n' → ∀ b, splitParas (a ++ nlnl ++ b) = a :: splitParas b := by
  intro a
  induction a with
  | nil =>
    intro _ _ b
    show splitParas ('\n' :: '\n' :: b) = [] :: splitParas b
    rw [splitParas, if_pos (by simp)]
  | cons c a' ih =>
    intro hsub hlast b
    cases ha' : a' with
    | nil =>
      have hc : ¬ c = '\n' := by
        subst ha'
        intro hc
        exact hlast (by rw [hc]; rfl)
      show splitParas (c :: '\n' :: '\n' :: b) = [c] :: splitParas b
      rw [splitParas, if_neg (by simp [hc])]
      rw [splitParas, if_pos (by simp)]
      rfl
    | cons e a'' =>
      subst ha'
      have hcond : ¬ (c = '\n' && e = '\n') = true := by
        intro hce
        simp only [Bool.and_eq_true, decide_eq_true_eq] at hce
        rw [hce.1, hce.2, hasSub_cons] at hsub
        simp [nlnl, List.isPrefixOf] at hsub
      have hsub' : hasSub nlnl (e :: a'') = false := by
        rw [hasSub_cons, Bool.or_eq_false_iff] at hsub
        exact hsub.2
      have hlast' : (e :: a'').getLast? ≠ some '\n' := by
        rw [List.getLast?_cons_cons] at hlast
        exact hlast
      show splitParas (c :: e :: (a'' ++ nlnl ++ b)) = (c :: e :: a'') :: splitParas b
      rw [splitParas, if_neg hcond]
      have := ih hsub' hlast' b
      rw [show e :: (a'' ++ nlnl ++ b) = (e :: a'') ++ nlnl ++ b from rfl, this]
      rfl

theorem joinParas_cons {p : Str} {ps : List Str} (h : ps ≠ []) :
    joinParas (p :: ps) = p ++ nlnl ++ joinParas ps := by
  cases ps with
  | nil => exact absurd rfl h
  | cons q t => rfl

/-- Splitting a separator-joined list recovers the list, provided the pieces
are separator-free and no piece but the last ends with a newline. -/
theorem splitParas_joinParas : ∀ {ps : List Str}, ps ≠ [] →
    (∀ p ∈ ps, hasSub nlnl p = false) →
    (∀ p ∈ ps.dropLast, p.getLast? ≠ some '\n') →
    splitParas (joinParas ps) = ps := by
  intro ps
  induction ps with
  | nil => intro h; exact absurd rfl h
  | cons p qs ih =>
    intro _ hsep hlast
    cases qs with
    | nil => exact splitParas_single (hsep p (List.mem_cons_self _ _))
    | cons q t =>
      rw [joinParas_cons (by simp)]
      rw [splitParas_glue (hsep p (List.mem_cons_self _ _))
        (hlast p (by rw [show ((p :: q :: t) : List Str).dropLast = p :: (q :: t).dropLast from rfl]
                     exact List.mem_cons_self _ _)) _]
      rw [ih (by simp) (fun r hr => hsep r (List.mem_cons_of_mem _ hr))
        (fun r hr => hlast r (by
          rw [show ((p :: q :: t) : List Str).dropLast = p :: (q :: t).dropLast from rfl]
          exact List.mem_cons_of_mem _ hr))]

theorem mem_dropLast_cons {α : Type} {p a : α} {l : List α}
    (hp : p ∈ l.dropLast) : p ∈ (a :: l).dropLast := by
  cases l with
  | nil => simp at hp
  | cons b t =>
    rw [show (a :: b :: t).dropLast = a :: (b :: t).dropLast from rfl]
    exact List.mem_cons_of_mem _ hp

/-- A property of all non-final elements transfers to any sublist. -/
theorem forall_dropLast_of_sublist {α : Type} {P : α → Prop}
    {l' l : List α} (hsub : List.Sublist l' l) :
    (∀ p ∈ l.dropLast, P p) → ∀ p ∈ l'.dropLast, P p := by
  induction hsub with
  | slnil => intro _ p hp; simp at hp
  | @cons l₁ l₂ a hsub ih =>
    intro h
    exact ih (fun p hp => h p (mem_dropLast_cons hp))
  | @cons₂ l₁ l₂ a hsub ih =>
    intro h p hp
    cases hl₁ : l₁ with
    | nil => rw [hl₁] at hp; simp at hp
    | cons b t =>
      rw [hl₁] at hp
      rw [show (a :: b :: t).dropLast = a :: (b :: t).dropLast from rfl] at hp
      have hl₂ne : l₂ ≠ [] := by
        intro he
        rw [he] at hsub
        rw [List.sublist_nil.mp hsub] at hl₁
        simp at hl₁
      rcases List.mem_cons.mp hp with hp | hp
      · subst hp
        apply h
        cases hl₂ : l₂ with
        | nil => exact absurd hl₂ hl₂ne
        | cons c u =>
          rw [show (p :: c :: u).dropLast = p :: (c :: u).dropLast from rfl]
          exact List.mem_cons_self _ _
      · exact ih (fun r hr => h r (mem_dropLast_cons hr)) p (by rw [hl₁]; exact hp)

theorem splitLines_ne_nil (s : Str) : splitLines s ≠ [] := by
  induction s with
  | nil => simp [splitLines]
  | cons c rest ih =>
    rw [splitLines]
    by_cases hc : c = '\n'
    · simp [hc]
    · rw [if_neg (by simpa using hc)]
      cases hsp : splitLines rest with
      | nil => exact absurd hsp ih
      | cons a b => simp [consHead]

theorem splitLines_no_nl {s : Str} : ∀ l ∈ splitLines s, '\n' ∉ l := by
  induction s with
  | nil =>
    intro l hl
    simp only [splitLines, List.mem_singleton] at hl
    subst hl; simp
  | cons c rest ih =>
    intro l hl
    rw [splitLines] at hl
    by_cases hc : c = '\n'
    · rw [if_pos (by simpa using hc)] at hl
      rcases List.mem_cons.mp hl with hl | hl
      · subst hl; simp
      · exact ih l hl
    · rw [if_neg (by simpa using hc)] at hl
      cases hsp : splitLines rest with
      | nil => exact absurd hsp (splitLines_ne_nil _)
      | cons a b =>
        rw [hsp] at hl
        simp only [consHead] at hl
        rcases List.mem_cons.mp hl with hl | hl
        · subst hl
          intro hmem
          rcases List.mem_cons.mp hmem with hmem | hmem
          · exact hc hmem.symm
          · exact ih a (by rw [hsp]; exact List.mem_cons_self _ _) hmem
        · exact ih l (by rw [hsp]; exact List.mem_cons_of_mem _ hl)

theorem splitLines_single {l : Str} (h : '\n' ∉ l) : splitLines l = [l] := by
  induction l with
  | nil => rfl
  | cons c rest ih =>
    have hc : ¬ c = '\n' := fun he => h (by rw [he]; exact List.mem_cons_self _ _)
    rw [splitLines, if_neg (by simpa using hc), ih (fun hm => h (List.mem_cons_of_mem _ hm))]
    rfl

theorem splitLines_glue {a : Str} (h : '\n' ∉ a) (b : Str) :
    splitLines (a ++ '\n' :: b) = a :: splitLines b := by
  induction a with
  | nil => simp [splitLines]
  | cons c a' ih =>
    have hc : ¬ c = '\n' := fun he => h (by rw [he]; exact List.mem_cons_self _ _)
    rw [List.cons_append, splitLines, if_neg (by simpa using hc),
      ih (fun hm => h (List.mem_cons_of_mem _ hm))]
    rfl

theorem joinLines_cons {l : Str} {ls : List Str} (h : ls ≠ []) :
    joinLines (l :: ls) = l ++ '\n' :: joinLines ls := by
  cases ls with
  | nil => exact absurd rfl h
  | cons m t => rfl

theorem splitLines_joinLines : ∀ {ls : List Str}, ls ≠ [] →
    (∀ l ∈ ls, '\n' ∉ l) → splitLines (joinLines ls) = ls := by
  intro ls
  induction ls with
  | nil => intro h; exact absurd rfl h
  | cons l ms ih =>
    intro _ hnl
    cases ms with
    | nil => exact splitLines_single (hnl l (List.mem_cons_self _ _))
    | cons m t =>
      rw [joinLines_cons (by simp), splitLines_glue (hnl l (List.mem_cons_self _ _)),
        ih (by simp) (fun r hr => hnl r (List.mem_cons_of_mem _ hr))]

/-! ### Document processor (`src/orchestrator/document_processor.py`) -/

/-- Convert a Lean string literal to the `Str` model. -/
def lit (s : String) : Str := s.data

/-- Python `str.isupper()` restricted to ASCII: at least one letter and no
lowercase letter. -/
def pyIsUpper (s : Str) : Bool :=
  s.any Char.isAlpha && s.all (fun c => !c.isAlpha || c.isUpper)

/-- Consume the literal `w` at the start of `s` (regex literal prefix). -/
def eat (w : Str) (s : Str) : Option Str :=
  if w.isPrefixOf s then some (s.drop w.length) else none

/-- Consume the literal `w` case-insensitively at the start of `s`. -/
def eatCI (w : Str) (s : Str) : Option Str :=
  if lowerStr (s.take w.length) = w then some (s.drop w.length) else none

/-- Consume the first alternative of a regex alternation that matches; the
alternatives used in this file are prefix-free, so first-match is exact. -/
def eatAlts (alts : List Str) (s : Str) : Option Str :=
  match alts with
  | [] => none
  | w :: rest =>
    match eat w s with
    | some r => some r
    | none => eatAlts rest s

/-- `re.search(pat, s)`: try an anchored matcher `p` at every position. -/
def searchHere (p : Str → Bool) : Str → Bool
  | [] => p []
  | c :: rest => p (c :: rest) || searchHere p rest

/-- Matcher for `\d+[\.:]\s+[A-Z]`; with `re.IGNORECASE` (`ci = true`) the
class `[A-Z]` also matches lowercase letters. -/
def matchDigitsDotCap (ci : Bool) (s : Str) : Bool :=
  let ds := s.takeWhile Char.isDigit
  let r1 := s.dropWhile Char.isDigit
  ds ≠ [] &&
    (match r1 with
     | c :: r2 =>
       (c = '.' || c = ':') &&
         (let ws := r2.takeWhile isWS
          let r3 := r2.dropWhile isWS
          ws ≠ [] &&
            (match r3 with
             | d :: _ => if ci then d.isAlpha else d.isUpper
             | [] => false))
     | [] => false)

/-- `re.match(r'^(chapter\s+)?\d+[\.:]\s+[A-Z]', ·, re.IGNORECASE)`
(document_processor.py line 543). -/
def matchChapterPat (s : Str) : Bool :=
  (match eatCI (lit "chapter") s with
   | some r1 =>
     let ws := r1.takeWhile isWS
     let r2 := r1.dropWhile isWS
     ws ≠ [] && matchDigitsDotCap true r2
   | none => false)
  || matchDigitsDotCap true s

/-- `re.match(r'^\d+\.\d+\s+[A-Z]', ·)` (line 547, case-sensitive). -/
def matchSecNumPat (s : Str) : Bool :=
  let d1 := s.takeWhile Char.isDigit
  let r1 := s.dropWhile Char.isDigit
  d1 ≠ [] &&
    (match r1 with
     | '.' :: r2 =>
       let d2 := r2.takeWhile Char.isDigit
       let r3 := r2.dropWhile Char.isDigit
       d2 ≠ [] &&
         (let ws := r3.takeWhile isWS
          let r4 := r3.dropWhile isWS
          ws ≠ [] &&
            (match r4 with
             | d :: _ => d.isUpper
             | [] => false))
     | _ => false)

/-- Count the matches of `re.findall(r'\b[A-Z]{2,}\b', ·)`: maximal uppercase
runs of length ≥ 2 delimited by non-word characters.  `prevW` records whether
the previous character was a word character, `runLen` the length of the
uppercase run in progress (0 when the run start was not at a word boundary). -/
def capsScan : Str → Bool → Nat → Nat
  | [], _, runLen => if 2 ≤ runLen then 1 else 0
  | c :: rest, prevW, runLen =>
    if c.isUpper then
      if 0 < runLen then capsScan rest true (runLen + 1)
      else if !prevW then capsScan rest true 1
      else capsScan rest true 0
    else
      if 2 ≤ runLen && !isWordChar c then 1 + capsScan rest (isWordChar c) 0
      else capsScan rest (isWordChar c) 0

/-- `DocumentProcessor._is_section_header` (lines 534-562). -/
def isSectionHeader (text : Str) : Bool :=
  let t := strip text
  -- short and all uppercase
  (t.length < 100 && pyIsUpper t && 5 < t.length)
  -- numbered sections like "1. Introduction" or "Chapter 1:"
  || matchChapterPat t
  -- section numbers like "1.1 Safety Procedures"
  || matchSecNumPat t
  -- 2..8 words, every word capitalized, not ending in a period
  || (t.length < 100 &&
      (let words := splitWs t
       2 ≤ words.length && words.length ≤ 8 &&
         words.all (fun w => !w.isEmpty && (w.headD ' ').isUpper) &&
         !(decide (t.getLast? = some '.'))))
  -- at least two all-caps words
  || (t.length < 100 && 2 ≤ capsScan t false 0)

/-- `DocumentProcessor._is_list_item` (lines 488-508). -/
def isListItem (text : Str) : Bool :=
  let t := strip text
  match t with
  | [] => false
  | c :: r =>
    -- `^[\-\*\•]\s+`
    ((c = '-' || c = '*' || c = '•') &&
       (match r with | d :: _ => isWS d | [] => false))
    -- `^\d+[\.\)]\s+`
    || (let ds := t.takeWhile Char.isDigit
        let r1 := t.dropWhile Char.isDigit
        ds ≠ [] &&
          (match r1 with
           | p :: r2 =>
             (p = '.' || p = ')') && (match r2 with | d :: _ => isWS d | [] => false)
           | [] => false))
    -- `^[a-zA-Z][\.\)]\s+`
    || (c.isAlpha &&
        (match r with
         | p :: r2 =>
           (p = '.' || p = ')') && (match r2 with | d :: _ => isWS d | [] => false)
         | [] => false))

/-- `DocumentProcessor._is_topic_change` (lines 510-532); only the next
paragraph is inspected. -/
def isTopicChange (_cur next : Str) : Bool :=
  let nl := strip (lowerStr next)
  [lit "however", lit "meanwhile", lit "in contrast", lit "on the other hand",
    lit "alternatively"].any (fun w => w.isPrefixOf nl)
  || [lit "step ", lit "phase ", lit "part "].any (fun w =>
      match eat w nl with
      | some r => (match r with | c :: _ => c.isDigit | [] => false)
      | none => false)
  || [lit "important", lit "note", lit "warning", lit "caution",
      lit "remember"].any (fun w => w.isPrefixOf nl)

/-- `this (book|document|guide|manual|chapter) (will|shall|aims to|is designed to)`
anchored at the current position. -/
def matchThisDocAt (s : Str) : Bool :=
  match eat (lit "this ") s with
  | none => false
  | some r1 =>
    match eatAlts [lit "book", lit "document", lit "guide", lit "manual",
        lit "chapter"] r1 with
    | none => false
    | some r2 =>
      match eat (lit " ") r2 with
      | none => false
      | some r3 =>
        (eatAlts [lit "will", lit "shall", lit "aims to", lit "is designed to"]
          r3).isSome

/-- `in this (chapter|section), (we|you) will` anchored at the position. -/
def matchInThisAt (s : Str) : Bool :=
  match eat (lit "in this ") s with
  | none => false
  | some r1 =>
    match eatAlts [lit "chapter", lit "section"] r1 with
    | none => false
    | some r2 =>
      match eat (lit ", ") r2 with
      | none => false
      | some r3 =>
        match eatAlts [lit "we", lit "you"] r3 with
        | none => false
        | some r4 => (eat (lit " will") r4).isSome

/-- `about this (book|document|guide|manual)` anchored at the position. -/
def matchAboutThisAt (s : Str) : Bool :=
  match eat (lit "about this ") s with
  | none => false
  | some r1 =>
    (eatAlts [lit "book", lit "document", lit "guide", lit "manual"] r1).isSome

/-- `for more information, (visit|see|contact)` anchored at the position. -/
def matchForMoreAt (s : Str) : Bool :=
  match eat (lit "for more information, ") s with
  | none => false
  | some r1 => (eatAlts [lit "visit", lit "see", lit "contact"] r1).isSome

/-- `DocumentProcessor.UNWANTED_PHRASES` (lines 33-60) tested with
`re.search` against the lowercased paragraph. -/
def matchUnwantedPhrase (pl : Str) : Bool :=
  (lit "copyright").isPrefixOf pl
  || hasSub (lit "©") pl
  || hasSub (lit "all rights reserved") pl
  || (lit "isbn").isPrefixOf pl
  || hasSub (lit "published by") pl
  || hasSub (lit "publication date") pl
  || searchHere matchThisDocAt pl
  || searchHere matchInThisAt pl
  || searchHere matchAboutThisAt pl
  || searchHere matchForMoreAt pl
  || hasSub (lit "visit our website") pl
  || hasSub (lit "www.") pl
  || hasSub (lit "http://") pl
  || hasSub (lit "https://") pl
  || hasSub (lit "email:") pl
  || hasSub (lit "contact us") pl
  || hasSub (lit "@") pl
  || hasSub (lit "trademark") pl
  || hasSub (lit "disclaimer") pl

/-- `DocumentProcessor.UNWANTED_SECTION_HEADERS` (lines 13-30) tested with
`re.match` against the stripped, lowercased paragraph; the `^...$` patterns
become equality, `^appendix` a prefix test, `acknowledgments?` both
spellings. -/
def matchUnwantedHeader (t : Str) : Bool :=
  t = lit "table of contents" || t = lit "list of figures" || t = lit "list of tables"
  || t = lit "preface" || t = lit "foreword" || t = lit "references"
  || t = lit "bibliography" || t = lit "works cited"
  || (lit "appendix").isPrefixOf t || t = lit "appendices"
  || t = lit "endnotes" || t = lit "footnotes" || t = lit "glossary"
  || t = lit "index" || t = lit "acknowledgment" || t = lit "acknowledgments"
  || t = lit "about the author"

/-- `DocumentProcessor.PAGE_MARKERS` (lines 63-73) tested with `re.match`
against the lowercased, stripped line. -/
def matchPageMarker (l : Str) : Bool :=
  -- "page \d+"
  (match eat (lit "page ") l with
   | some r => (match r with | c :: _ => c.isDigit | [] => false)
   | none => false)
  -- "^\d+$"
  || (l ≠ [] && l.all Char.isDigit)
  -- "^\d+\s*\|"
  || (let d := l.takeWhile Char.isDigit
      let r := l.dropWhile Char.isDigit
      d ≠ [] && (match r.dropWhile isWS with | '|' :: _ => true | _ => false))
  -- "\|\s*\d+$"
  || (match l with
      | '|' :: r =>
        let r2 := r.dropWhile isWS
        let d := r2.takeWhile Char.isDigit
        d ≠ [] && r2.dropWhile Char.isDigit = []
      | _ => false)
  -- "^page \d+ of \d+"
  || (match eat (lit "page ") l with
      | some r =>
        let d1 := r.takeWhile Char.isDigit
        let r1 := r.dropWhile Char.isDigit
        d1 ≠ [] &&
          (match eat (lit " of ") r1 with
           | some r2 => (match r2 with | c :: _ => c.isDigit | [] => false)
           | none => false)
      | none => false)
  -- "^\d+\s*/\s*\d+$"
  || (let d1 := l.takeWhile Char.isDigit
      let r1 := l.dropWhile Char.isDigit
      d1 ≠ [] &&
        (match r1.dropWhile isWS with
         | '/' :: r2 =>
           let r3 := r2.dropWhile isWS
           let d2 := r3.takeWhile Char.isDigit
           d2 ≠ [] && r3.dropWhile Char.isDigit = []
         | _ => false))
  -- "^chapter \d+$"
  || (match eat (lit "chapter ") l with
      | some r => r ≠ [] && r.all Char.isDigit
      | none => false)
  -- "^section \d+\.?\d*$"
  || (match eat (lit "section ") l with
      | some r =>
        let d1 := r.takeWhile Char.isDigit
        let r1 := r.dropWhile Char.isDigit
        d1 ≠ [] &&
          (match r1 with
           | [] => true
           | '.' :: r2 => r2.all Char.isDigit
           | _ => false)
      | none => false)
  -- "^\d+\.\d+$"
  || (let d1 := l.takeWhile Char.isDigit
      let r1 := l.dropWhile Char.isDigit
      d1 ≠ [] &&
        (match r1 with
         | '.' :: r2 => r2 ≠ [] && r2.all Char.isDigit
         | _ => false))

/-- Keep/drop decision for one line in
`DocumentProcessor._remove_page_markers` (lines 292-312). -/
def keepLine (line : Str) : Bool :=
  if strip line = [] then true
  else if matchPageMarker (strip (lowerStr line)) then false
  else if (strip line).length < 10 then false
  else if (strip line).dedup.length ≤ 3 then false
  else true

/-- `DocumentProcessor._remove_page_markers` (lines 287-314). -/
def removePageMarkers (s : Str) : Str :=
  joinLines ((splitLines s).filter keepLine)

/-- Keep/drop decision for one paragraph in
`DocumentProcessor._filter_paragraphs` (lines 254-283).  The float test
`alpha_chars < len(para) * 0.3` is modelled exactly as
`10 * alpha_chars < 3 * len(para)`; for the lengths at which the two sides
can be equal (multiples of 10) the double `len * 0.3` rounds to the exact
integer, so the comparisons agree. -/
def keepPara (para : Str) : Bool :=
  let pl := lowerStr para
  let ps := strip para
  if matchUnwantedPhrase pl then false
  else if isSectionHeader ps then true
  else if ps.length < 15 then false
  else if 30 < para.length && 10 * para.countP (fun c => c.isAlpha) < 3 * para.length then
    false
  else true

/-- `DocumentProcessor._filter_paragraphs` (lines 249-285). -/
def filterParagraphs (s : Str) : Str :=
  joinParas ((splitParas s).filter keepPara)

/-- The scan of `DocumentProcessor._remove_unwanted_sections` (lines 212-247);
the boolean is `skip_until_next_section`. -/
def rusLoop : List Str → Bool → List Str
  | [], _ => []
  | para :: rest, skip =>
    let pl := lowerStr (strip para)
    if matchUnwantedHeader pl then rusLoop rest true
    else if skip then
      if isSectionHeader para && !matchUnwantedHeader pl then para :: rusLoop rest false
      else rusLoop rest true
    else para :: rusLoop rest false

/-- `DocumentProcessor._remove_unwanted_sections`. -/
def removeUnwantedSections (s : Str) : Str :=
  joinParas (rusLoop (splitParas s) false)

/-- The scan of `DocumentProcessor._remove_repeated_content` (lines 316-335);
`seen` collects normalized paragraphs of length ≥ 30. -/
def rrcLoop : List Str → List Str → List Str
  | [], _ => []
  | para :: rest, seen =>
    let pc := lowerStr (strip para)
    if pc ∈ seen then rrcLoop rest seen
    else if pc.length < 30 then para :: rrcLoop rest seen
    else para :: rrcLoop rest (pc :: seen)

/-- `DocumentProcessor._remove_repeated_content`. -/
def removeRepeatedContent (s : Str) : Str :=
  joinParas (rrcLoop (splitParas s) [])

/-- Replacement text for a run of `n` newlines under `re.sub(r'\n{3,}', '\n\n', ·)`. -/
def emitNl (n : Nat) : Str := if 3 ≤ n then ['\n', '\n'] else List.replicate n '\n'

def cnlAux : Str → Nat → Str
  | [], n => emitNl n
  | c :: rest, n =>
    if c = '\n' then cnlAux rest (n + 1) else emitNl n ++ c :: cnlAux rest 0

/-- `re.sub(r'\n{3,}', '\n\n', text)` (clean_text line 202). -/
def collapseNl (s : Str) : Str := cnlAux s 0

/-- Replacement text for a run of `n` spaces under `re.sub(r' {2,}', ' ', ·)`. -/
def emitSp (n : Nat) : Str := if 2 ≤ n then [' '] else List.replicate n ' '

def cspAux : Str → Nat → Str
  | [], n => emitSp n
  | c :: rest, n =>
    if c = ' ' then cspAux rest (n + 1) else emitSp n ++ c :: cspAux rest 0

/-- `re.sub(r' {2,}', ' ', text)` (clean_text line 203). -/
def collapseSp (s : Str) : Str := cspAux s 0

/-- Step 5 of `clean_text` (lines 201-204): collapse newline runs, collapse
space runs, strip. -/
def wsNormalize (s : Str) : Str := strip (collapseSp (collapseNl s))

/-- `DocumentProcessor.clean_text` (lines 178-210): the five cleaning steps in
source order (diagnostic printing omitted). -/
def cleanText (s : Str) : Str :=
  wsNormalize (removeRepeatedContent (removePageMarkers (filterParagraphs
    (removeUnwantedSections s))))

/-! ### Chunker (`DocumentProcessor.chunk_text`, lines 337-486) -/

/-- `self.min_chunk_size` (line 77). -/
def minChunkSize : Nat := 200
/-- `self.max_chunk_size` (line 78). -/
def maxChunkSize : Nat := 800
/-- `self.target_chunk_size` (line 79). -/
def targetChunkSize : Nat := 500

/-- A chunk `{title, content, category}` as built by `chunk_text`. -/
structure Chunk where
  title : Str
  content : Str
  category : Str
deriving DecidableEq, Repr

/-- Default title `"Safety Information"` (line 353). -/
def defaultTitle : Str := lit "Safety Information"

/-- Appending a paragraph to the buffer (lines 380-382):
`if current_chunk: current_chunk += "\n\n"; current_chunk += para`. -/
def chunkBufAppend (cur para : Str) : Str :=
  if cur ≠ [] then cur ++ nlnl ++ para else para

/-- The `should_split` decision (lines 384-414) on the already-extended
buffer `cur'`; `is_list_item(para)` and the `next_is_list` lookahead are
inlined. -/
def chunkShouldSplit (cur' para : Str) (rest : List Str) : Bool :=
  if maxChunkSize ≤ cur'.length then true
  else if targetChunkSize ≤ cur'.length then
    match rest with
    | [] => false
    | nextPara :: _ =>
      if isSectionHeader nextPara then true
      else if !(match rest with | [] => false | n :: _ => isListItem n)
          && !isListItem para then true
      else if isListItem para
          && !(match rest with | [] => false | n :: _ => isListItem n) then true
      else false
  else if minChunkSize ≤ cur'.length then
    match rest with
    | [] => false
    | nextPara :: _ =>
      if isSectionHeader nextPara then true
      else if isTopicChange para nextPara && !isListItem para then true
      else false
  else false

/-- The main loop of `chunk_text` (lines 356-432), including the final flush.
`minChunkSize / 2 = 100` models `min_chunk_size * 0.5` and
`minChunkSize * 2 / 5 = 80` models `min_chunk_size * 0.4` (both float
products are exact at these values). -/
def chunkLoop (cat : Str) : List Str → Str → Str → List Chunk → List Chunk
  | [], cur, title, chunks =>
    chunks ++
      (if strip cur ≠ [] && minChunkSize * 2 / 5 ≤ cur.length then
        [⟨title, strip cur, cat⟩]
      else [])
  | para :: rest, cur, title, chunks =>
    if isSectionHeader para then
      -- always split at section headers (lines 358-371)
      chunkLoop cat rest
        (if strip cur ≠ [] && minChunkSize / 2 ≤ cur.length then [] else cur)
        (strip (para.take 100))
        (chunks ++
          (if strip cur ≠ [] && minChunkSize / 2 ≤ cur.length then
            [⟨title, strip cur, cat⟩]
          else []))
    else
      if chunkShouldSplit (chunkBufAppend cur para) para rest then
        chunkLoop cat rest [] title
          (chunks ++ [⟨title, strip (chunkBufAppend cur para), cat⟩])
      else chunkLoop cat rest (chunkBufAppend cur para) title chunks

/-- The paragraph list `[p.strip() for p in text.split('\n\n') if p.strip()]`
(line 349). -/
def chunkParas (text : Str) : List Str :=
  ((splitParas text).filter (fun p => strip p ≠ [])).map strip

/-- `chunk_text` before the forced-split post-pass. -/
def chunkTextMain (text : Str) (cat : Str) : List Chunk :=
  chunkLoop cat (chunkParas text) [] defaultTitle []

/-- Title decoration `f"{title} (Part {part_num})"` (lines 470, 480). -/
def partTitle (title : Str) (n : Nat) : Str :=
  if 1 < n then title ++ lit " (Part " ++ (Nat.repr n).data ++ [')'] else title

/-- Inner loop of `_force_split_large_chunks` (lines 462-483); the buffer
extension `if sub_chunk: sub_chunk += "\n\n"; sub_chunk += para` is the same
as in the main loop. -/
def fsLoop (cat : Str) (title : Str) : List Str → Str → Nat → List Chunk
  | [], sub, n => if strip sub ≠ [] then [⟨partTitle title n, strip sub, cat⟩] else []
  | p :: rest, sub, n =>
    if targetChunkSize ≤ (chunkBufAppend sub p).length then
      ⟨partTitle title n, strip (chunkBufAppend sub p), cat⟩ ::
        fsLoop cat title rest [] (n + 1)
    else fsLoop cat title rest (chunkBufAppend sub p) n

/-- `DocumentProcessor._force_split_large_chunks` (lines 444-486). -/
def forceSplitLargeChunks (chunks : List Chunk) (cat : Str) : List Chunk :=
  chunks.flatMap (fun c =>
    if c.content.length ≤ maxChunkSize then [c]
    else fsLoop cat c.title (chunkParas c.content) [] 1)

/-- `DocumentProcessor.chunk_text` (lines 337-442): main loop plus the
conditional forced-split post-pass (line 436). -/
def chunkText (text : Str) (cat : Str) : List Chunk :=
  if (chunkTextMain text cat).length ≤ 2 &&
      2000 < ((chunkTextMain text cat).map (fun c => c.content.length)).sum then
    forceSplitLargeChunks (chunkTextMain text cat) cat
  else chunkTextMain text cat

set_option maxRecDepth 100000
example : cleanText (lit "ab cd\nabcdefghijkl") = lit "abcdefghijkl" := by decide
example : keepPara (lit "COPYRIGHT NOTICE") = false ∧ isSectionHeader (lit "COPYRIGHT NOTICE") = true := by decide

/-! ### Knowledge base manager (`src/orchestrator/knowledge_base_manager.py`)

The manager's on-disk state is modelled by `KBState`: `files` maps a
partition (category) name to the decoded contents of
`<category>_base.json`, and `hashes` models the `content_hashes` map of
`.import_metadata.json`.  `json.dump`/`json.load` (an external library) are
modelled as faithful storage of the record list, and the SHA-256 content
hash is modelled by the normalized content string itself (an injective
stand-in: the code only ever compares hashes of equal or distinct
normalized contents for equality). -/

/-- A knowledge-base record has the same shape as a chunk. -/
abbrev Entry := Chunk

structure KBState where
  files : List (Str × List Entry)
  hashes : List (Str × List Str)
deriving DecidableEq, Repr

/-- Association-list lookup (a directory of JSON files keyed by name). -/
def alookup {α : Type} : List (Str × α) → Str → Option α
  | [], _ => none
  | (k', v) :: rest, k => if k' = k then some v else alookup rest k

/-- Association-list update/insert (writing a JSON file). -/
def aset {α : Type} : List (Str × α) → Str → α → List (Str × α)
  | [], k, v => [(k, v)]
  | (k', v') :: rest, k, v =>
    if k' = k then (k', v) :: rest else (k', v') :: aset rest k v

/-- The empty store: no partition files, no recorded hashes. -/
def kbEmpty : KBState := ⟨[], []⟩

inductive LoadErr where
  | fileNotFound
deriving DecidableEq, Repr

/-- `KnowledgeBaseManager.load_knowledge_base` (lines 24-42): raises
`FileNotFoundError` when the partition file is absent. -/
def loadKnowledgeBase (s : KBState) (cat : Str) : Except LoadErr (List Entry) :=
  match alookup s.files cat with
  | none => Except.error LoadErr.fileNotFound
  | some es => Except.ok es

/-- `KnowledgeBaseManager.save_knowledge_base` (lines 44-56). -/
def saveKnowledgeBase (s : KBState) (cat : Str) (entries : List Entry) : KBState :=
  { s with files := aset s.files cat entries }

/-- The normalization inside `_compute_content_hash` (line 117):
`' '.join(content.lower().strip().split())`. -/
def computeContentHash (content : Str) : Str :=
  joinSp (splitWs (strip (lowerStr content)))

/-- The token set `set(text.lower().strip().split())` of `_compute_similarity`
(lines 131-132). -/
def tokensOf (t : Str) : Finset Str :=
  (splitWs (strip (lowerStr t))).toFinset

/-- `KnowledgeBaseManager._compute_similarity` (lines 120-141); the float
division is modelled as exact rational division. -/
def computeSimilarity (t1 t2 : Str) : ℚ :=
  let words1 := tokensOf t1
  let words2 := tokensOf t2
  if words1 = ∅ ∨ words2 = ∅ then 0
  else
    let inter := (words1 ∩ words2).card
    let uni := (words1 ∪ words2).card
    if 0 < uni then (inter : ℚ) / uni else 0

/-- `KnowledgeBaseManager.is_content_duplicate` (lines 143-182): exact hash
check first, then similarity against the loaded partition; a missing
partition file (`FileNotFoundError`) means no similarity duplicates. -/
def isContentDuplicate (s : KBState) (content cat : Str) (threshold : ℚ) : Bool :=
  let contentHash := computeContentHash content
  let catHashes := (alookup s.hashes cat).getD []
  if contentHash ∈ catHashes then true
  else
    match loadKnowledgeBase s cat with
    | Except.error _ => false
    | Except.ok kbEntries =>
      kbEntries.any (fun e => decide (threshold ≤ computeSimilarity content e.content))

/-- `KnowledgeBaseManager._record_content_hash` (lines 184-202). -/
def recordContentHash (s : KBState) (content cat : Str) : KBState :=
  let contentHash := computeContentHash content
  let cur := (alookup s.hashes cat).getD []
  if contentHash ∈ cur then s
  else { s with hashes := aset s.hashes cat (cur ++ [contentHash]) }

/-- The per-entry filtering loop of `append_to_knowledge_base`
(lines 227-253), threading the metadata state (hash recording), the list
`entries_to_add` and the skip counter. -/
def appendLoop (skipDup : Bool) (cat : Str) :
    KBState → List Entry → List Entry → Nat → KBState × List Entry × Nat
  | s, [], toAdd, skipped => (s, toAdd, skipped)
  | s, e :: rest, toAdd, skipped =>
    if skipDup && isContentDuplicate s e.content cat (1/2) then
      appendLoop skipDup cat s rest toAdd (skipped + 1)
    else if skipDup &&
        toAdd.any (fun a => decide ((1 : ℚ)/2 ≤ computeSimilarity e.content a.content)) then
      appendLoop skipDup cat s rest toAdd (skipped + 1)
    else
      appendLoop skipDup cat (recordContentHash s e.content cat) rest (toAdd ++ [e]) skipped

/-- `KnowledgeBaseManager.append_to_knowledge_base` (lines 204-263).  Returns
the new state, the entries actually added, and the reported skip count. -/
def appendToKnowledgeBase (s : KBState) (cat : Str) (newEntries : List Entry)
    (skipDup : Bool) : KBState × List Entry × Nat :=
  let existing := (alookup s.files cat).getD []
  let r := appendLoop skipDup cat s newEntries [] 0
  (saveKnowledgeBase r.1 cat (existing ++ r.2.1), r.2.1, r.2.2)

/-- `KnowledgeBaseManager.validate_entry` (lines 358-378): all three required
fields present (always true in this model) and non-empty modulo whitespace. -/
def validateEntry (e : Entry) : Bool :=
  !(e.title.isEmpty || (strip e.title).isEmpty)
  && !(e.content.isEmpty || (strip e.content).isEmpty)
  && !(e.category.isEmpty || (strip e.category).isEmpty)

/-- Python truthiness of the `limit` argument (`if limit and ...`, line 305). -/
def limitTruthy : Option Nat → Bool
  | none => false
  | some 0 => false
  | some (_ + 1) => true

/-- The match test of `search_knowledge_base` (lines 300-302). -/
def matchesQuery (queryLower : Str) (e : Entry) : Bool :=
  hasSub queryLower (lowerStr e.title) || hasSub queryLower (lowerStr e.content)

/-- The result loop of `search_knowledge_base` (lines 298-306) with its
early `break`. -/
def searchLoop (queryLower : Str) (limit : Option Nat) :
    List Entry → List Entry → List Entry
  | [], results => results
  | e :: rest, results =>
    if matchesQuery queryLower e then
      let results' := results ++ [e]
      if limitTruthy limit && limit.getD 0 ≤ results'.length then results'
      else searchLoop queryLower limit rest results'
    else searchLoop queryLower limit rest results

/-- `KnowledgeBaseManager.search_knowledge_base` (lines 279-308). -/
def searchKnowledgeBase (s : KBState) (cat query : Str) (limit : Option Nat) :
    Except LoadErr (List Entry) :=
  (loadKnowledgeBase s cat).map (fun entries => searchLoop (lowerStr query) limit entries [])

/-! ### Knowledge-base pipeline tool (`src/tools/kb_pipeline.py`)

State is modelled by `PState`: the contents of one partition file plus the
named backup files under `knowledge_base/backups/`.  The UTC timestamp
`ts()` is passed in as a parameter `now`.  Python `set` iteration
(in `replace_splits`) is modelled as first-occurrence order. -/

/-- Single-character global replace, e.g. `s.replace('\r', '\n')`. -/
def replChar (old new : Char) (s : Str) : Str :=
  s.map (fun c => if c = old then new else c)

/-- Fuel-driven scan implementing Python `str.replace(old, new)` for a
non-empty `old`: non-overlapping occurrences, left to right.  The fuel is
instantiated with the string length, which bounds the number of scan steps. -/
def replaceAllFuel (old new : Str) : Nat → Str → Str
  | _, [] => []
  | 0, s => s
  | fuel + 1, c :: rest =>
    if old.isPrefixOf (c :: rest) then
      new ++ replaceAllFuel old new fuel (List.drop (old.length - 1) rest)
    else c :: replaceAllFuel old new fuel rest

/-- Python `s.replace(old, new)` (`old` non-empty). -/
def pyReplace (s old new : Str) : Str := replaceAllFuel old new s.length s

/-- Fuel-driven `str.split(sep)` for a non-empty literal separator. -/
def splitOnStrFuel (sep : Str) : Nat → Str → List Str
  | _, [] => [[]]
  | 0, s => [s]
  | fuel + 1, c :: rest =>
    if sep.isPrefixOf (c :: rest) then
      [] :: splitOnStrFuel sep fuel (List.drop (sep.length - 1) rest)
    else consHead c (splitOnStrFuel sep fuel rest)

/-- Python `s.split(sep)` (`sep` non-empty). -/
def pySplitOn (sep s : Str) : List Str := splitOnStrFuel sep s.length s

/-- `STOPWORDS` (kb_pipeline.py lines 27-31). -/
def pyStopwords : List Str :=
  [lit "the", lit "and", lit "or", lit "in", lit "on", lit "at", lit "a",
   lit "an", lit "to", lit "for", lit "of", lit "by", lit "with", lit "is",
   lit "are", lit "be", lit "as", lit "from", lit "that", lit "this",
   lit "these", lit "those", lit "it", lit "its", lit "was", lit "were",
   lit "will", lit "can", lit "should", lit "must", lit "have", lit "has",
   lit "had"]

/-- The character class of `PUNCT_RE` (line 33). -/
def isPunctRe (c : Char) : Bool :=
  c = '.' || c = ',' || c = ':' || c = ';' || c = '"' || c = '(' || c = ')'
  || c = '?' || c = '!' || c = '[' || c = ']' || c = '/' || c = '\\'

/-- First-occurrence deduplication (the `seen`-set loops of the tool). -/
def dedupFirst : List Str → List Str → List Str
  | [], _ => []
  | x :: rest, seen =>
    if x ∈ seen then dedupFirst rest seen else x :: dedupFirst rest (x :: seen)

/-- Scanner for `re.findall(r"\b[a-zA-Z]{4,}\b", ·)` in `generate_keywords`
(line 48): maximal letter runs of length ≥ 4 at word boundaries.  `run` is
the current letter run, reversed (empty also when the run started inside a
word). -/
def kwScan : Str → Bool → Str → List Str
  | [], _, run => if 4 ≤ run.length then [run.reverse] else []
  | c :: rest, prevW, run =>
    if c.isAlpha then
      if run ≠ [] then kwScan rest true (c :: run)
      else if !prevW then kwScan rest true [c]
      else kwScan rest true []
    else
      if 4 ≤ run.length && !isWordChar c then run.reverse :: kwScan rest (isWordChar c) []
      else kwScan rest (isWordChar c) []

/-- `kb_pipeline.generate_keywords` (lines 47-55). -/
def generateKeywords (title : Str) : List Str :=
  dedupFirst (kwScan (lowerStr title) false []) []

/-- `kb_pipeline.normalize_category` (lines 58-61). -/
def normalizeCategory (cat : Str) : Str :=
  if cat = [] then []
  else replChar ' ' '_' (replChar '-' '_' (lowerStr (strip cat)))

/-- Line-break characters recognised by Python `str.splitlines`. -/
def isLineBreak (c : Char) : Bool :=
  c = '\n' || c = '\r' || c = Char.ofNat 11 || c = Char.ofNat 12
  || c = Char.ofNat 28 || c = Char.ofNat 29 || c = Char.ofNat 30
  || c = Char.ofNat 133 || c = Char.ofNat 8232 || c = Char.ofNat 8233

/-- Python `str.splitlines()`: split at line breaks (`\r\n` counts once),
with no empty final piece for a trailing break. -/
def pySplitlines : Str → List Str
  | [] => []
  | [c] => if isLineBreak c then [[]] else [[c]]
  | c :: d :: rest =>
    if c = '\r' && d = '\n' then [] :: pySplitlines rest
    else if isLineBreak c then [] :: pySplitlines (d :: rest)
    else consHead c (pySplitlines (d :: rest))

/-- A record as handled by the pipeline tool: the three core fields plus the
optional fields the tool materialises (`source`, `keywords`, `search_text`). -/
structure PEntry where
  title : Str
  content : Str
  category : Str
  source : Option Str
  keywords : Option (List Str)
  search_text : Option Str
deriving DecidableEq, Repr

/-- Per-entry transformation of `improve_file` (lines 77-101): normalize the
category, add `source` if absent, derive `keywords` from the title if
absent, strip every content line. -/
def improveEntry (e : PEntry) : PEntry :=
  { title := e.title
    content := joinLines ((pySplitlines e.content).map strip)
    category := normalizeCategory e.category
    source := some (match e.source with | none => [] | some src => src)
    keywords :=
      (match e.keywords with
       | none => some (generateKeywords e.title)
       | some ks => some ks)
    search_text := e.search_text }

/-- `sentence_ending` (lines 120-121): `s.endswith(('.', '!', '?'))`. -/
def sentenceEnding (s : Str) : Bool :=
  decide (s.getLast? = some '.') || decide (s.getLast? = some '!')
  || decide (s.getLast? = some '?')

/-- Collapse every whitespace run to one space; pending runs at the end are
dropped (the caller strips, so this matches `re.sub(r'\s+', ' ', s)` up to
the outer `strip`). -/
def cwrAux : Str → Bool → Str
  | [], _ => []
  | c :: rest, pend =>
    if isWS c then cwrAux rest true
    else if pend then ' ' :: c :: cwrAux rest false
    else c :: cwrAux rest false

/-- `clean_whitespace` (lines 124-125): `re.sub(r'\s+', ' ', s).strip()`. -/
def cleanWhitespaceFmt (s : Str) : Str := strip (cwrAux s false)

/-- `re.match(r'^[-•*]\s+', ln)` (line 136). -/
def isBulletLine (ln : Str) : Bool :=
  match ln with
  | c :: rest =>
    (c = '-' || c = '•' || c = '*') && (match rest with | d :: _ => isWS d | [] => false)
  | [] => false

/-- `re.sub(r'^[-•*]\s+', '', ln)` (line 139): drop the single anchored
match, if any. -/
def dropBulletPrefix (ln : Str) : Str :=
  match ln with
  | c :: rest =>
    if (c = '-' || c = '•' || c = '*') &&
        (match rest with | d :: _ => isWS d | [] => false) then
      rest.dropWhile isWS
    else ln
  | [] => ln

/-- One bullet line turned into a capitalized, period-terminated sentence
(lines 138-143). -/
def fmtBulletLine (ln : Str) : Str :=
  let content := cleanWhitespaceFmt (strip (dropBulletPrefix ln))
  let content :=
    if !sentenceEnding content then
      (content.reverse.dropWhile (fun c => c = '.')).reverse ++ ['.']
    else content
  match content with
  | [] => []
  | c :: rest => c.toUpper :: rest

/-- Scanner for `re.split(r'\n\s*\n', text)` (line 130): a match starts at a
newline and extends to the last newline of the following whitespace run. -/
def reSplitBlankFuel : Nat → Str → List Str
  | _, [] => [[]]
  | 0, s => [s]
  | fuel + 1, c :: rest =>
    if c = '\n' then
      let run := rest.takeWhile isWS
      match run.reverse.findIdx? (fun ch => ch = '\n') with
      | some j => [] :: reSplitBlankFuel fuel (rest.drop (run.length - j))
      | none => consHead c (reSplitBlankFuel fuel rest)
    else consHead c (reSplitBlankFuel fuel rest)

/-- `kb_pipeline.bullets_to_sentences` (lines 128-151). -/
def bulletsToSentences (text : Str) : Str :=
  let text := replChar '\r' '\n' (pyReplace text (lit "\r\n") (lit "\n"))
  let paras := reSplitBlankFuel text.length text
  let outParas := paras.filterMap (fun p =>
    let lines := ((splitLines p).map strip).filter (fun ln => ln ≠ [])
    if lines = [] then none
    else if lines.all isBulletLine then
      some (joinSp (lines.map fmtBulletLine))
    else
      let joined := cleanWhitespaceFmt (joinSp lines)
      some (if joined ≠ [] && !sentenceEnding joined then joined ++ ['.'] else joined))
  joinParas outParas

/-- Scanner finding the first match of `re.search(r":\s*-\s*", p)`
(line 200); returns match start and end offsets. -/
def scdAux : Nat → Str → Nat → Option (Nat × Nat)
  | _, [], _ => none
  | 0, _, _ => none
  | fuel + 1, c :: rest, i =>
    if c = ':' then
      let ws1 := rest.takeWhile isWS
      let r1 := rest.dropWhile isWS
      match r1 with
      | '-' :: r2 =>
        let ws2 := r2.takeWhile isWS
        some (i, i + 1 + ws1.length + 1 + ws2.length)
      | _ => scdAux fuel rest (i + 1)
    else scdAux fuel rest (i + 1)

/-- Scanner for `re.split(r"\s*-\s*", tail)` (line 204). -/
def rsdAux : Nat → Str → List Str
  | _, [] => [[]]
  | 0, s => [s]
  | fuel + 1, c :: rest =>
    let s := c :: rest
    let r1 := s.dropWhile isWS
    match r1 with
    | '-' :: r2 => [] :: rsdAux fuel (r2.dropWhile isWS)
    | _ => consHead c (rsdAux fuel rest)

/-- `kb_pipeline.split_inline_bullets` (lines 196-217). -/
def splitInlineBullets (paragraph : Str) : Str :=
  let p := replChar '\r' '\n' (pyReplace paragraph (lit "\r\n") (lit "\n"))
  if '\n' ∈ p then paragraph
  else
    match scdAux p.length p 0 with
    | some se =>
      let head := strip (p.take se.1)
      let tail := strip (p.drop se.2)
      let items := ((rsdAux tail.length tail).map strip).filter (fun it => it ≠ [])
      let sentences := items.map (fun it => if sentenceEnding it then it else it ++ ['.'])
      let sentences := sentences.map (fun s =>
        match s with | [] => [] | c :: rest => c.toUpper :: rest)
      head ++ ':' :: ' ' :: joinSp sentences
    | none =>
      if hasSub (lit " - ") p then
        let parts := ((pySplitOn (lit " - ") p).map strip).filter (fun q => q ≠ [])
        match parts with
        | head :: item1 :: restItems =>
          let items := item1 :: restItems
          let sentences := items.map (fun it => if sentenceEnding it then it else it ++ ['.'])
          let sentences := sentences.map (fun s =>
            match s with | [] => [] | c :: rest => c.toUpper :: rest)
          head ++ ':' :: ' ' :: joinSp sentences
        | _ => paragraph
      else paragraph

/-- The dash class `[\-–—]` of `replace_splits`. -/
def isDashAny (c : Char) : Bool := c = '-' || c = '–' || c = '—'

def wordBoundaryAfter (r : Str) : Bool :=
  match r with | [] => true | c :: _ => !isWordChar c

/-- Scanner for `re.findall(r"\b\d+[\-–—]\d+\b", ·)` (line 271). -/
def findRangesAux : Nat → Str → Bool → List Str
  | 0, _, _ => []
  | _, [], _ => []
  | fuel + 1, c :: rest, prevW =>
    if !prevW && c.isDigit then
      let d1 := (c :: rest).takeWhile Char.isDigit
      let r1 := (c :: rest).dropWhile Char.isDigit
      match r1 with
      | d :: r2 =>
        if isDashAny d then
          let d2 := r2.takeWhile Char.isDigit
          let r3 := r2.dropWhile Char.isDigit
          if d2 ≠ [] && wordBoundaryAfter r3 then
            (d1 ++ d :: d2) :: findRangesAux fuel r3 true
          else findRangesAux fuel rest (isWordChar c)
        else findRangesAux fuel rest (isWordChar c)
      | [] => findRangesAux fuel rest (isWordChar c)
    else findRangesAux fuel rest (isWordChar c)

def findRanges (s : Str) : List Str := findRangesAux s.length s false

/-- Scanner for `re.findall(r"\b[\w]+-[\w]+\b", ·)` in `hyphen_tokens`
(line 266). -/
def findHyphensAux : Nat → Str → Bool → List Str
  | 0, _, _ => []
  | _, [], _ => []
  | fuel + 1, c :: rest, prevW =>
    if !prevW && isWordChar c then
      let w1 := (c :: rest).takeWhile isWordChar
      let r1 := (c :: rest).dropWhile isWordChar
      match r1 with
      | '-' :: r2 =>
        let w2 := r2.takeWhile isWordChar
        let r3 := r2.dropWhile isWordChar
        if w2 ≠ [] then (w1 ++ '-' :: w2) :: findHyphensAux fuel r3 true
        else findHyphensAux fuel rest (isWordChar c)
      | _ => findHyphensAux fuel rest (isWordChar c)
    else findHyphensAux fuel rest (isWordChar c)

/-- `hyphen_tokens` (lines 265-266): the match set, in first-occurrence
order (Python set iteration order is unspecified). -/
def hyphenTokens (s : Str) : List Str :=
  dedupFirst (findHyphensAux s.length s false) []

/-- Python `str.capitalize()`: first character uppercased, rest lowered. -/
def capitalizePy (s : Str) : Str :=
  match s with
  | [] => []
  | c :: rest => c.toUpper :: lowerStr rest

/-- `kb_pipeline.replace_splits` (lines 269-292): restore numeric ranges and
hyphenated tokens found in the backup. -/
def replaceSplits (current backup : Str) : Str × Bool :=
  let step1 := (findRanges backup).foldl (fun (acc : Str × Bool) m =>
    let alt := m.flatMap (fun c => if isDashAny c then lit ". " else [c])
    let acc1 := if hasSub alt acc.1 then (pyReplace acc.1 alt m, true) else acc
    let alt2 := m.flatMap (fun c => if c = '-' then lit " - " else [c])
    if hasSub alt2 acc1.1 then (pyReplace acc1.1 alt2 m, true) else acc1)
    (current, false)
  (hyphenTokens backup).foldl (fun (acc : Str × Bool) token =>
    match pySplitOn (lit "-") token with
    | [a, b] =>
      [a ++ lit ". " ++ b, a ++ lit ". " ++ capitalizePy b, a ++ lit " " ++ b,
        a ++ lit " . " ++ b].foldl (fun acc2 cand =>
          if hasSub cand acc2.1 then (pyReplace acc2.1 cand token, true) else acc2) acc
    | _ => acc) step1

/-- `clean_text_for_search` (lines 338-344). -/
def cleanTextForSearch (s : Str) : Str :=
  let s1 := replChar '\r' ' ' (replChar '\n' ' ' (pyReplace s (lit "\r\n") (lit " ")))
  let s2 := s1.map (fun c => if isPunctRe c then ' ' else c)
  let s3 := lowerStr (strip (cwrAux s2 false))
  joinSp ((splitWs s3).filter (fun t => t ∉ pyStopwords))

/-- The loop of `clean_keywords` (lines 347-359); `out` accumulates in
reverse for the membership test. -/
def ckLoop : List Str → List Str → List Str
  | [], _ => []
  | kw :: rest, out =>
    let k := strip (lowerStr (kw.filter (fun c => !isPunctRe c)))
    if k = [] then ckLoop rest out
    else
      let parts := (splitWs k).filter (fun q => q ∉ pyStopwords)
      let joined := joinSp parts
      if joined ≠ [] && joined ∉ out then joined :: ckLoop rest (joined :: out)
      else ckLoop rest out

/-- `kb_pipeline.clean_keywords`. -/
def cleanKeywords (kws : List Str) : List Str := ckLoop kws []

/-- Per-entry transformation of `format_file` (lines 167-177). -/
def formatEntry (e : PEntry) : PEntry :=
  if (strip e.content).isEmpty then e
  else { e with content := bulletsToSentences e.content }

/-- Per-entry transformation of `fix_inline_file` (lines 229-238). -/
def fixInlineEntry (e : PEntry) : PEntry :=
  { e with content := splitInlineBullets e.content }

/-- Per-entry transformation of `clean_file` (lines 375-389); the keywords
are replaced when the cleaned list differs, and `search_text` is written
whenever it differs from (or was absent before) the regenerated text. -/
def cleanEntry (e : PEntry) : PEntry :=
  let newKw := cleanKeywords (e.keywords.getD [])
  let e1 := if newKw ≠ e.keywords.getD [] then { e with keywords := some newKw } else e
  let newSearch := cleanTextForSearch e1.content
  match e1.search_text with
  | some st => if st = newSearch then e1 else { e1 with search_text := some newSearch }
  | none => { e1 with search_text := some newSearch }

/-- One partition file plus its backups (`knowledge_base/backups/`),
modelled as name/content pairs. -/
structure PState where
  file : List PEntry
  backups : List (Str × List PEntry)
deriving DecidableEq, Repr

/-- The backup-then-overwrite wrapper shared by `improve_file`,
`format_file`, `fix_inline_file` and `clean_file`: if the transformed data
differs, copy the unmodified file to
`backups/<base>.<now><suffix>` and then write the new data. -/
def runStage (transform : List PEntry → List PEntry) (suffix : Str)
    (s : PState) (base now : Str) : PState :=
  let d := transform s.file
  if d ≠ s.file then
    { file := d, backups := s.backups ++ [(base ++ '.' :: (now ++ suffix), s.file)] }
  else s

/-- `kb_pipeline.improve_file` (lines 64-116); backup suffix `.bak`. -/
def improveFile (s : PState) (base now : Str) : PState :=
  runStage (List.map improveEntry) (lit ".bak") s base now

/-- `kb_pipeline.format_file` (lines 154-192); backup suffix `.fmt.bak`. -/
def formatFile (s : PState) (base now : Str) : PState :=
  runStage (List.map formatEntry) (lit ".fmt.bak") s base now

/-- `kb_pipeline.fix_inline_file` (lines 220-253); backup suffix
`.inlinefix.bak`. -/
def fixInlineFile (s : PState) (base now : Str) : PState :=
  runStage (List.map fixInlineEntry) (lit ".inlinefix.bak") s base now

/-- `kb_pipeline.clean_file` (lines 362-404); backup suffix `.clean.bak`. -/
def cleanFile (s : PState) (base now : Str) : PState :=
  runStage (List.map cleanEntry) (lit ".clean.bak") s base now

/-- Python string `<` (code-point lexicographic). -/
def lexLt : Str → Str → Bool
  | [], [] => false
  | [], _ :: _ => true
  | _ :: _, [] => false
  | a :: as, b :: bs => if a < b then true else if b < a then false else lexLt as bs

/-- `find_latest_backup_for` (lines 257-262): glob `backups/<base>*.bak`,
sort descending, take the first — i.e. the lexicographically greatest
name. -/
def findLatestBackup (backups : List (Str × List PEntry)) (base : Str) :
    Option (List PEntry) :=
  let matching := backups.filter (fun nb =>
    base.isPrefixOf nb.1 && (lit ".bak").isSuffixOf nb.1)
  match matching with
  | [] => none
  | b :: rest =>
    some ((rest.foldl (fun best nb => if lexLt best.1 nb.1 then nb else best) b).2)

/-- The `bak_map` title lookup of `restore_file` (line 310): a dict
comprehension keyed by title, so the last backup entry with a title wins. -/
def bakLookup (bak : List PEntry) (title : Str) : Option PEntry :=
  bak.reverse.find? (fun b => decide (b.title = title))

/-- `kb_pipeline.restore_file` (lines 295-334): restore artifacts from the
latest backup; note the file is rewritten with NO new backup copy. -/
def restoreFile (s : PState) (base : Str) : PState :=
  match findLatestBackup s.backups base with
  | none => s
  | some bak =>
    let step := s.file.foldr (fun e (acc : List PEntry × Bool) =>
      match bakLookup bak e.title with
      | none => (e :: acc.1, acc.2)
      | some be =>
        let r := replaceSplits e.content be.content
        if r.2 then ({ e with content := r.1 } :: acc.1, true)
        else (e :: acc.1, acc.2)) ([], false)
    if step.2 then { s with file := step.1 } else s

/-! ### Auxiliary lemmas for the claims -/

theorem alookup_aset {α : Type} (m : List (Str × α)) (k : Str) (v : α) :
    alookup (aset m k v) k = some v := by
  induction m with
  | nil => simp [aset, alookup]
  | cons kv rest ih =>
    rcases kv with ⟨k', v'⟩
    rw [aset]
    by_cases h : k' = k
    · rw [if_pos h, alookup, if_pos h]
    · rw [if_neg h, alookup, if_neg h]
      exact ih

/-- `splitWsAux` ignores a stripped leading-whitespace run. -/
theorem splitWsAux_dropWhile (u : Str) :
    splitWsAux (u.dropWhile (fun c => isWS c)) [] = splitWsAux u [] := by
  induction u with
  | nil => rfl
  | cons c rest ih =>
    rw [List.dropWhile_cons]
    by_cases h : isWS c = true
    · rw [if_pos (by simpa using h), splitWsAux, if_pos h]
      simpa using ih
    · rw [if_neg (by simpa using h)]

theorem splitWsAux_nil_of_dropTrailWs_nil {u : Str} (h : dropTrailWs u = []) :
    splitWsAux u [] = [] := by
  induction u with
  | nil => rfl
  | cons c rest ih =>
    rw [dropTrailWs] at h
    by_cases hc : (dropTrailWs rest = [] && isWS c) = true
    · simp only [Bool.and_eq_true, decide_eq_true_eq] at hc
      rw [splitWsAux, if_pos hc.2]
      simp only [if_pos rfl]
      exact ih hc.1
    · rw [if_neg hc] at h
      simp at h

/-- `splitWsAux` ignores a stripped trailing-whitespace run. -/
theorem splitWsAux_dropTrailWs : ∀ (u : Str) (acc : Str),
    splitWsAux (dropTrailWs u) acc = splitWsAux u acc := by
  intro u
  induction u with
  | nil => intro acc; rfl
  | cons c rest ih =>
    intro acc
    rw [dropTrailWs]
    by_cases hc : (dropTrailWs rest = [] && isWS c) = true
    · rw [if_pos hc]
      simp only [Bool.and_eq_true, decide_eq_true_eq] at hc
      have hrest : splitWsAux rest [] = [] := splitWsAux_nil_of_dropTrailWs_nil hc.1
      by_cases ha : acc = [] <;> simp [splitWsAux, hc.2, hrest, ha]
    · rw [if_neg hc, splitWsAux, splitWsAux]
      by_cases hws : isWS c = true
      · rw [if_pos hws, if_pos hws]
        by_cases ha : acc = []
        · rw [if_pos ha, if_pos ha, ih]
        · rw [if_neg ha, if_neg ha, ih]
      · rw [if_neg hws, if_neg hws, ih]

/-- `str.split()` is invariant under `strip` (leading/trailing whitespace
produces no tokens). -/
theorem splitWs_strip (u : Str) : splitWs (strip u) = splitWs u := by
  unfold splitWs strip
  rw [splitWsAux_dropTrailWs, splitWsAux_dropWhile]

/-! ### C8 — similarity is Jaccard similarity -/

/-- Modelled from the spec: the set of whitespace-delimited lowercased
tokens of a text (§4.3). -/
def tokensSpec (t : Str) : Finset Str := (splitWs (lowerStr t)).toFinset

/-- Modelled from the spec: Jaccard similarity
`|tokens(a) ∩ tokens(b)| / |tokens(a) ∪ tokens(b)|`, 0 if either token set
is empty (§4.3). -/
def jaccardSpec (a b : Str) : ℚ :=
  if tokensSpec a = ∅ ∨ tokensSpec b = ∅ then 0
  else ((tokensSpec a ∩ tokensSpec b).card : ℚ) / ((tokensSpec a ∪ tokensSpec b).card : ℚ)

theorem tokensOf_eq_tokensSpec (t : Str) : tokensOf t = tokensSpec t := by
  unfold tokensOf tokensSpec
  rw [splitWs_strip]

/-- C8: `_compute_similarity` equals the Jaccard similarity of the
whitespace-delimited lowercased token sets, always lies in `[0, 1]`, and is
`0` whenever either token set is empty. -/
theorem computeSimilarity_jaccard (a b : Str) :
    computeSimilarity a b = jaccardSpec a b ∧
    0 ≤ computeSimilarity a b ∧ computeSimilarity a b ≤ 1 ∧
    (tokensSpec a = ∅ ∨ tokensSpec b = ∅ → computeSimilarity a b = 0) := by
  have hdef : computeSimilarity a b = jaccardSpec a b := by
    unfold computeSimilarity jaccardSpec
    rw [tokensOf_eq_tokensSpec, tokensOf_eq_tokensSpec]
    by_cases h : tokensSpec a = ∅ ∨ tokensSpec b = ∅
    · rw [if_pos h, if_pos h]
    · rw [if_neg h, if_neg h]
      have ha : (tokensSpec a).Nonempty :=
        Finset.nonempty_iff_ne_empty.mpr (fun he => h (Or.inl he))
      have huni : 0 < (tokensSpec a ∪ tokensSpec b).card :=
        Finset.card_pos.mpr (ha.mono Finset.subset_union_left)
      rw [if_pos huni]
  refine ⟨hdef, ?_, ?_, ?_⟩
  · rw [hdef]
    unfold jaccardSpec
    by_cases h : tokensSpec a = ∅ ∨ tokensSpec b = ∅
    · rw [if_pos h]
    · rw [if_neg h]
      positivity
  · rw [hdef]
    unfold jaccardSpec
    by_cases h : tokensSpec a = ∅ ∨ tokensSpec b = ∅
    · rw [if_pos h]; norm_num
    · rw [if_neg h]
      have ha : (tokensSpec a).Nonempty :=
        Finset.nonempty_iff_ne_empty.mpr (fun he => h (Or.inl he))
      have huni : 0 < (tokensSpec a ∪ tokensSpec b).card :=
        Finset.card_pos.mpr (ha.mono Finset.subset_union_left)
      rw [div_le_one (by exact_mod_cast huni)]
      exact_mod_cast Finset.card_le_card
        (Finset.inter_subset_union (s := tokensSpec a) (t := tokensSpec b))
  · intro h
    rw [hdef]
    unfold jaccardSpec
    rw [if_pos h]

theorem computeSimilarity_jaccard_witness :
    (tokensSpec [] = ∅ ∨ tokensSpec (lit "x") = ∅) ∧
    computeSimilarity [] (lit "x") = 0 :=
  ⟨Or.inl (by decide), (computeSimilarity_jaccard [] (lit "x")).2.2.2 (Or.inl (by decide))⟩

/-! ### C9 — save/load round-trip -/

/-- C9: after `save_knowledge_base(p, records)`, `load_knowledge_base(p)`
returns exactly `records` (order- and field-preserving); `json.dump`/`load`
is modelled as faithful storage. -/
theorem save_load_roundtrip (s : KBState) (cat : Str) (records : List Entry) :
    loadKnowledgeBase (saveKnowledgeBase s cat records) cat = Except.ok records := by
  unfold loadKnowledgeBase saveKnowledgeBase
  rw [alookup_aset]

/-! ### C10 — search with limit 0 returns every match -/

theorem searchLoop_no_limit (ql : Str) (entries results : List Entry) :
    searchLoop ql none entries results = results ++ entries.filter (matchesQuery ql) := by
  induction entries generalizing results with
  | nil => simp [searchLoop]
  | cons e rest ih =>
    rw [searchLoop]
    by_cases h : matchesQuery ql e = true
    · rw [if_pos h]
      simp only [limitTruthy, Bool.false_and, Bool.false_eq_true, if_false]
      rw [ih, List.filter_cons_of_pos h]
      simp
    · rw [if_neg h, ih, List.filter_cons_of_neg (by simpa using h)]

theorem searchLoop_zero (ql : Str) (entries results : List Entry) :
    searchLoop ql (some 0) entries results = searchLoop ql none entries results := by
  induction entries generalizing results with
  | nil => rfl
  | cons e rest ih =>
    rw [searchLoop, searchLoop]
    by_cases h : matchesQuery ql e = true
    · rw [if_pos h, if_pos h]
      simp only [limitTruthy, Bool.false_and, Bool.false_eq_true, if_false]
      exact ih _
    · rw [if_neg h, if_neg h]
      exact ih _

/-- C10: `search_knowledge_base` with `limit = 0` behaves exactly like
passing no limit, returning every matching entry (the limit is applied only
when truthy). -/
theorem search_limit_zero (s : KBState) (cat query : Str) :
    searchKnowledgeBase s cat query (some 0) = searchKnowledgeBase s cat query none ∧
    searchKnowledgeBase s cat query none =
      (loadKnowledgeBase s cat).map
        (fun entries => entries.filter (matchesQuery (lowerStr query))) := by
  constructor
  · unfold searchKnowledgeBase
    cases loadKnowledgeBase s cat with
    | error e => rfl
    | ok entries => simp [Except.map, searchLoop_zero]
  · unfold searchKnowledgeBase
    cases loadKnowledgeBase s cat with
    | error e => rfl
    | ok entries => simp [Except.map, searchLoop_no_limit]

/-! ### C7 — missing partition: load fails, duplicate check falls back -/

/-- C7: when the partition file is absent, `load_knowledge_base` fails with
the NotFound error (it never returns an empty list), while
`is_content_duplicate` swallows that error and returns the result of the
hash check alone. -/
theorem load_missing_notfound (s : KBState) (cat content : Str) (threshold : ℚ)
    (h : alookup s.files cat = none) :
    loadKnowledgeBase s cat = Except.error LoadErr.fileNotFound ∧
    isContentDuplicate s content cat threshold =
      decide (computeContentHash content ∈ (alookup s.hashes cat).getD []) := by
  have hload : loadKnowledgeBase s cat = Except.error LoadErr.fileNotFound := by
    unfold loadKnowledgeBase
    rw [h]
  refine ⟨hload, ?_⟩
  unfold isContentDuplicate
  rw [hload]
  by_cases hmem : computeContentHash content ∈ (alookup s.hashes cat).getD []
  · rw [if_pos hmem, decide_eq_true hmem]
  · rw [if_neg hmem, decide_eq_false hmem]

theorem load_missing_notfound_witness :
    alookup kbEmpty.files (lit "fall") = none ∧
    loadKnowledgeBase kbEmpty (lit "fall") = Except.error LoadErr.fileNotFound :=
  ⟨by decide,
    (load_missing_notfound kbEmpty (lit "fall") (lit "x") (1/2) (by decide)).1⟩

/-! ### C4 — appending the same content twice stores one record, skips one -/

theorem recordContentHash_files (s : KBState) (content cat : Str) :
    (recordContentHash s content cat).files = s.files := by
  unfold recordContentHash
  by_cases h : computeContentHash content ∈ (alookup s.hashes cat).getD []
  · rw [if_pos h]
  · rw [if_neg h]

/-- C4: starting from an empty store, appending a batch `[e]` and then
appending the same batch again (with `skip_duplicates = true`) leaves
exactly one stored record in the partition; the first call adds one entry
and skips none, the second adds none and reports a skip count of 1. -/
theorem append_same_twice (e : Entry) (cat : Str) :
    alookup (appendToKnowledgeBase
        (appendToKnowledgeBase kbEmpty cat [e] true).1 cat [e] true).1.files cat
      = some [e] ∧
    (appendToKnowledgeBase kbEmpty cat [e] true).2.1 = [e] ∧
    (appendToKnowledgeBase kbEmpty cat [e] true).2.2 = 0 ∧
    (appendToKnowledgeBase
        (appendToKnowledgeBase kbEmpty cat [e] true).1 cat [e] true).2.1 = [] ∧
    (appendToKnowledgeBase
        (appendToKnowledgeBase kbEmpty cat [e] true).1 cat [e] true).2.2 = 1 := by
  have hdup0 : isContentDuplicate kbEmpty e.content cat (1/2) = false := by
    unfold isContentDuplicate loadKnowledgeBase
    simp [kbEmpty, alookup]
  have hstep1 : appendToKnowledgeBase kbEmpty cat [e] true =
      (⟨[(cat, [e])], [(cat, [computeContentHash e.content])]⟩, [e], 0) := by
    unfold appendToKnowledgeBase appendLoop
    rw [hdup0]
    simp only [Bool.and_false, Bool.false_eq_true, if_false, List.any_nil,
      Bool.and_false, if_false]
    unfold appendLoop
    unfold recordContentHash saveKnowledgeBase
    simp [kbEmpty, alookup, aset]
  have hdup1 : isContentDuplicate
      (⟨[(cat, [e])], [(cat, [computeContentHash e.content])]⟩ : KBState)
      e.content cat (1/2) = true := by
    unfold isContentDuplicate
    simp [alookup]
  rw [hstep1]
  have hstep2 : appendToKnowledgeBase
      (⟨[(cat, [e])], [(cat, [computeContentHash e.content])]⟩ : KBState) cat [e] true =
      (⟨[(cat, [e])], [(cat, [computeContentHash e.content])]⟩, [], 1) := by
    unfold appendToKnowledgeBase appendLoop
    rw [hdup1]
    simp only [Bool.and_true, Bool.true_and, if_true]
    unfold appendLoop saveKnowledgeBase
    simp [alookup, aset]
  rw [hstep2]
  refine ⟨?_, rfl, rfl, rfl, rfl⟩
  simp [alookup]

/-! ### C3 — append stores entries without validating them -/

/-- A chunk with an empty title (and otherwise ordinary content). -/
def c3BadEntry : Entry :=
  ⟨[], lit "Ladders must be inspected before each use on site.", lit "general"⟩

/-- C3 counterexample: `append_to_knowledge_base` performs no validation, so
after appending, the stored partition contains an entry with an empty title
even though `validate_entry` rejects it. -/
theorem append_stores_invalid_entry :
    validateEntry c3BadEntry = false ∧
    c3BadEntry.title = [] ∧
    alookup (appendToKnowledgeBase kbEmpty (lit "fall") [c3BadEntry] true).1.files
        (lit "fall") = some [c3BadEntry] := by
  refine ⟨by decide, rfl, ?_⟩
  have hdup0 : isContentDuplicate kbEmpty c3BadEntry.content (lit "fall") (1/2) = false := by
    unfold isContentDuplicate loadKnowledgeBase
    simp [kbEmpty, alookup]
  unfold appendToKnowledgeBase appendLoop
  rw [hdup0]
  simp only [Bool.and_false, Bool.false_eq_true, if_false, List.any_nil]
  unfold appendLoop recordContentHash saveKnowledgeBase
  simp [kbEmpty, alookup, aset]

/-- C3 amended: `append_to_knowledge_base` applies only duplicate filtering,
never field validation — any non-duplicate entry of a singleton batch,
valid or not, is appended verbatim after the existing records. -/
theorem append_no_validation (s : KBState) (cat : Str) (e : Entry)
    (h : isContentDuplicate s e.content cat (1/2) = false) :
    alookup (appendToKnowledgeBase s cat [e] true).1.files cat
      = some ((alookup s.files cat).getD [] ++ [e]) ∧
    (appendToKnowledgeBase s cat [e] true).2.1 = [e] ∧
    (appendToKnowledgeBase s cat [e] true).2.2 = 0 := by
  unfold appendToKnowledgeBase appendLoop
  rw [h]
  simp only [Bool.and_false, Bool.false_eq_true, if_false, List.any_nil]
  unfold appendLoop saveKnowledgeBase
  refine ⟨?_, rfl, rfl⟩
  simp only [recordContentHash_files]
  rw [alookup_aset]
  simp

theorem append_no_validation_witness :
    isContentDuplicate kbEmpty (lit "some content") (lit "fall") (1/2) = false ∧
    alookup (appendToKnowledgeBase kbEmpty (lit "fall")
        [⟨[], lit "some content", lit "g"⟩] true).1.files (lit "fall")
      = some ((alookup kbEmpty.files (lit "fall")).getD [] ++
          [⟨[], lit "some content", lit "g"⟩]) :=
  ⟨by decide,
    (append_no_validation kbEmpty (lit "fall") ⟨[], lit "some content", lit "g"⟩
      (by decide)).1⟩

/-! ### C5 — the restore stage rewrites the file without a backup -/

/-- A partition whose current content has a split numeric range. -/
def c5CurEntry : PEntry :=
  ⟨lit "T", lit "fall range 10. 15 safety", lit "fall", none, none, none⟩

/-- The latest backup holds the original hyphenated range. -/
def c5BakEntry : PEntry :=
  ⟨lit "T", lit "fall range 10-15 safety", lit "fall", none, none, none⟩

def c5State : PState :=
  ⟨[c5CurEntry], [(lit "fall_base.json.20250101T000000Z.bak", [c5BakEntry])]⟩

/-- C5: evaluating `restore_file` at the failing input — the stage changes
the partition file (restoring "10-15") yet creates no backup, so no backup
of the file's prior content exists afterwards, contradicting the
backup-before-overwrite property claimed for every stage. -/
theorem restore_writes_without_backup :
    (restoreFile c5State (lit "fall_base.json")).file ≠ c5State.file ∧
    (restoreFile c5State (lit "fall_base.json")).backups = c5State.backups ∧
    c5State.file ∉ (restoreFile c5State (lit "fall_base.json")).backups.map Prod.snd := by
  decide

/-! ### C6 — the boilerplate filter overrides the section-header exemption -/

/-- An all-caps section header that also matches the `^copyright`
boilerplate pattern. -/
def c6Para : Str := lit "COPYRIGHT NOTICE"

/-- C6 counterexample: the paragraph is a section header, yet
`_filter_paragraphs` drops it because the boilerplate-phrase check runs
first — so a header is NOT always kept. -/
theorem header_dropped_by_boilerplate :
    isSectionHeader (strip c6Para) = true ∧
    matchUnwantedPhrase (lowerStr c6Para) = true ∧
    keepPara c6Para = false ∧
    filterParagraphs c6Para = [] := by
  decide

/-- C6 amended: a paragraph qualifying as a section header is kept by
`_filter_paragraphs` only if it matches no boilerplate phrase pattern; with
that proviso it is always kept (exempt from the length and alphabetic-ratio
checks). -/
theorem header_kept_unless_boilerplate (text p : Str)
    (hp : p ∈ splitParas text)
    (hunw : matchUnwantedPhrase (lowerStr p) = false)
    (hhdr : isSectionHeader (strip p) = true) :
    p ∈ (splitParas text).filter keepPara := by
  refine List.mem_filter.mpr ⟨hp, ?_⟩
  unfold keepPara
  rw [if_neg (by simp [hunw]), if_pos hhdr]

theorem header_kept_unless_boilerplate_witness :
    ((lit "FALL PROTECTION") ∈ splitParas (lit "FALL PROTECTION") ∧
      matchUnwantedPhrase (lowerStr (lit "FALL PROTECTION")) = false ∧
      isSectionHeader (strip (lit "FALL PROTECTION")) = true) ∧
    (lit "FALL PROTECTION") ∈ (splitParas (lit "FALL PROTECTION")).filter keepPara :=
  ⟨⟨by decide, by decide, by decide⟩,
    header_kept_unless_boilerplate (lit "FALL PROTECTION") (lit "FALL PROTECTION")
      (by decide) (by decide) (by decide)⟩

/-! ### C2 — stage idempotence lemmas -/

theorem filterParagraphs_idem (s : Str) :
    filterParagraphs (filterParagraphs s) = filterParagraphs s := by
  unfold filterParagraphs
  cases hke : (splitParas s).filter keepPara with
  | nil =>
    have : keepPara [] = false := by decide
    simp [joinParas, splitParas, this]
  | cons p t =>
    have hsp : splitParas (joinParas (p :: t)) = p :: t := by
      apply splitParas_joinParas (by simp)
      · intro q hq
        rw [← hke] at hq
        exact splitParas_no_sep q (List.mem_filter.mp hq).1
      · intro q hq
        rw [← hke] at hq
        exact forall_dropLast_of_sublist (List.filter_sublist _)
          splitParas_dropLast_getLast q hq
    rw [hsp, List.filter_eq_self.mpr (fun q hq => by
      rw [← hke] at hq
      exact (List.mem_filter.mp hq).2)]

theorem removePageMarkers_idem (s : Str) :
    removePageMarkers (removePageMarkers s) = removePageMarkers s := by
  unfold removePageMarkers
  cases hke : (splitLines s).filter keepLine with
  | nil =>
    have : keepLine [] = true := by decide
    simp [joinLines, splitLines, this]
  | cons l t =>
    have hsp : splitLines (joinLines (l :: t)) = l :: t := by
      apply splitLines_joinLines (by simp)
      intro q hq
      rw [← hke] at hq
      exact splitLines_no_nl q (List.mem_filter.mp hq).1
    rw [hsp, List.filter_eq_self.mpr (fun q hq => by
      rw [← hke] at hq
      exact (List.mem_filter.mp hq).2)]

theorem rusLoop_sublist : ∀ (ps : List Str) (b : Bool),
    List.Sublist (rusLoop ps b) ps := by
  intro ps
  induction ps with
  | nil => intro b; simp [rusLoop]
  | cons para rest ih =>
    intro b
    rw [rusLoop]
    by_cases h1 : matchUnwantedHeader (lowerStr (strip para)) = true
    · rw [if_pos h1]
      exact (ih true).cons _
    · rw [if_neg h1]
      by_cases hb : b = true
      · rw [if_pos hb]
        by_cases h2 : (isSectionHeader para && !matchUnwantedHeader (lowerStr (strip para))) = true
        · rw [if_pos h2]
          exact (ih false).cons₂ _
        · rw [if_neg h2]
          exact (ih true).cons _
      · rw [if_neg hb]
        exact (ih false).cons₂ _

theorem rusLoop_not_unwanted : ∀ (ps : List Str) (b : Bool) (p : Str),
    p ∈ rusLoop ps b → matchUnwantedHeader (lowerStr (strip p)) = false := by
  intro ps
  induction ps with
  | nil => intro b p hp; simp [rusLoop] at hp
  | cons para rest ih =>
    intro b p hp
    rw [rusLoop] at hp
    by_cases h1 : matchUnwantedHeader (lowerStr (strip para)) = true
    · rw [if_pos h1] at hp
      exact ih true p hp
    · rw [if_neg h1] at hp
      by_cases hb : b = true
      · rw [if_pos hb] at hp
        by_cases h2 : (isSectionHeader para && !matchUnwantedHeader (lowerStr (strip para))) = true
        · rw [if_pos h2] at hp
          rcases List.mem_cons.mp hp with hp | hp
          · subst hp; simpa using h1
          · exact ih false p hp
        · rw [if_neg h2] at hp
          exact ih true p hp
      · rw [if_neg hb] at hp
        rcases List.mem_cons.mp hp with hp | hp
        · subst hp; simpa using h1
        · exact ih false p hp

theorem rusLoop_all_kept : ∀ (ps : List Str),
    (∀ p ∈ ps, matchUnwantedHeader (lowerStr (strip p)) = false) →
    rusLoop ps false = ps := by
  intro ps
  induction ps with
  | nil => intro _; rfl
  | cons para rest ih =>
    intro h
    rw [rusLoop, if_neg (by simp [h para (List.mem_cons_self _ _)])]
    simp only [Bool.false_eq_true, if_false]
    rw [ih (fun p hp => h p (List.mem_cons_of_mem _ hp))]

theorem removeUnwantedSections_idem (s : Str) :
    removeUnwantedSections (removeUnwantedSections s) = removeUnwantedSections s := by
  unfold removeUnwantedSections
  cases hke : rusLoop (splitParas s) false with
  | nil =>
    have h1 : matchUnwantedHeader (lowerStr (strip ([] : Str))) = false := by decide
    simp [joinParas, splitParas, rusLoop, h1]
  | cons p t =>
    have hsp : splitParas (joinParas (p :: t)) = p :: t := by
      apply splitParas_joinParas (by simp)
      · intro q hq
        rw [← hke] at hq
        exact splitParas_no_sep q ((rusLoop_sublist _ _).subset hq)
      · intro q hq
        rw [← hke] at hq
        exact forall_dropLast_of_sublist (rusLoop_sublist _ _)
          splitParas_dropLast_getLast q hq
    rw [hsp, rusLoop_all_kept _ (fun q hq => by
      rw [← hke] at hq
      exact rusLoop_not_unwanted _ _ q hq)]

theorem rrcLoop_sublist : ∀ (ps seen : List Str),
    List.Sublist (rrcLoop ps seen) ps := by
  intro ps
  induction ps with
  | nil => intro seen; simp [rrcLoop]
  | cons para rest ih =>
    intro seen
    rw [rrcLoop]
    by_cases h1 : lowerStr (strip para) ∈ seen
    · rw [if_pos h1]
      exact (ih seen).cons _
    · rw [if_neg h1]
      by_cases h2 : (lowerStr (strip para)).length < 30
      · rw [if_pos h2]
        exact (ih seen).cons₂ _
      · rw [if_neg h2]
        exact (ih _).cons₂ _

theorem rrcLoop_reapply : ∀ (ps seen₁ seen₂ : List Str), seen₂ ⊆ seen₁ →
    rrcLoop (rrcLoop ps seen₁) seen₂ = rrcLoop ps seen₁ := by
  intro ps
  induction ps with
  | nil => intro seen₁ seen₂ _; rfl
  | cons para rest ih =>
    intro seen₁ seen₂ hsub
    rw [rrcLoop]
    by_cases h1 : lowerStr (strip para) ∈ seen₁
    · rw [if_pos h1]
      exact ih seen₁ seen₂ hsub
    · rw [if_neg h1]
      have h2 : lowerStr (strip para) ∉ seen₂ := fun hc => h1 (hsub hc)
      by_cases h3 : (lowerStr (strip para)).length < 30
      · rw [if_pos h3, rrcLoop, if_neg h2, if_pos h3, ih seen₁ seen₂ hsub]
      · rw [if_neg h3, rrcLoop, if_neg h2, if_neg h3,
          ih (lowerStr (strip para) :: seen₁) (lowerStr (strip para) :: seen₂)
            (List.cons_subset_cons _ hsub)]

theorem rrcLoop_ne_nil (para : Str) (rest : List Str) :
    rrcLoop (para :: rest) [] ≠ [] := by
  rw [rrcLoop]
  simp only [List.not_mem_nil, if_false]
  by_cases h : (lowerStr (strip para)).length < 30
  · rw [if_pos h]; simp
  · rw [if_neg h]; simp

theorem removeRepeatedContent_idem (s : Str) :
    removeRepeatedContent (removeRepeatedContent s) = removeRepeatedContent s := by
  unfold removeRepeatedContent
  cases hsp0 : splitParas s with
  | nil => exact absurd hsp0 (splitParas_ne_nil _)
  | cons p0 t0 =>
    have hne : rrcLoop (p0 :: t0) [] ≠ [] := rrcLoop_ne_nil p0 t0
    have hsp : splitParas (joinParas (rrcLoop (p0 :: t0) [])) = rrcLoop (p0 :: t0) [] := by
      apply splitParas_joinParas hne
      · intro q hq
        apply splitParas_no_sep q
        rw [hsp0]
        exact (rrcLoop_sublist _ _).subset hq
      · intro q hq
        refine forall_dropLast_of_sublist (l := splitParas s) ?_
          splitParas_dropLast_getLast q hq
        rw [hsp0]
        exact rrcLoop_sublist _ _
    rw [hsp, rrcLoop_reapply _ [] [] (by simp)]

def nl3 : Str := ['\n', '\n', '\n']
def sp2 : Str := [' ', ' ']

theorem hasSub_strip_false {w s : Str} (h : hasSub w s = false) :
    hasSub w (strip s) = false := by
  cases hh : hasSub w (strip s) with
  | false => rfl
  | true => rw [hasSub_mono_strip hh] at h; exact absurd h (by simp)

theorem emitNl_eq_replicate (n : Nat) :
    ∃ m, m ≤ 2 ∧ emitNl n = List.replicate m '\n' := by
  by_cases h3 : 3 ≤ n
  · exact ⟨2, by omega, by rw [emitNl, if_pos h3]; rfl⟩
  · exact ⟨n, by omega, by rw [emitNl, if_neg h3]⟩

theorem hasSub_nl3_replicate_le2 {m : Nat} (hm : m ≤ 2) :
    hasSub nl3 (List.replicate m '\n') = false := by
  interval_cases m <;> decide

theorem no_triple_glue {c : Char} {X : Str} (hc : ¬ c = '\n')
    (hX : hasSub nl3 X = false) :
    ∀ m, m ≤ 2 → hasSub nl3 (List.replicate m '\n' ++ c :: X) = false := by
  intro m hm
  have hcb : ('\n' == c) = false := beq_eq_false_iff_ne.mpr (Ne.symm hc)
  interval_cases m <;>
    simpa [List.replicate, hasSub_cons, nl3, List.isPrefixOf, hcb] using hX

/-- The output of the newline-collapsing pass contains no `\n\n\n`. -/
theorem cnl_no_triple : ∀ (s : Str) (n : Nat), hasSub nl3 (cnlAux s n) = false := by
  intro s
  induction s with
  | nil =>
    intro n
    rw [cnlAux]
    obtain ⟨m, hm, he⟩ := emitNl_eq_replicate n
    rw [he]
    exact hasSub_nl3_replicate_le2 hm
  | cons c rest ih =>
    intro n
    rw [cnlAux]
    by_cases hc : c = '\n'
    · rw [if_pos hc]
      exact ih (n + 1)
    · rw [if_neg hc]
      obtain ⟨m, hm, he⟩ := emitNl_eq_replicate n
      rw [he]
      exact no_triple_glue hc (ih 0) m hm

theorem hasSub_nl3_replicate_ge3 {n : Nat} (h : 3 ≤ n) (s : Str) :
    hasSub nl3 (List.replicate n '\n' ++ s) = true := by
  obtain ⟨m, rfl⟩ : ∃ m, n = m + 3 := ⟨n - 3, by omega⟩
  have hrepl : List.replicate (m + 3) '\n' = '\n' :: '\n' :: '\n' :: List.replicate m '\n' := by
    rw [show m + 3 = 3 + m from by omega, List.replicate_add]
    rfl
  rw [hrepl, List.cons_append, List.cons_append, List.cons_append, hasSub_cons,
    Bool.or_eq_true]
  left
  simp [nl3, List.isPrefixOf, isPrefixOf_nil_left_eq]

theorem cnl_id_aux : ∀ (s : Str) (n : Nat),
    hasSub nl3 (List.replicate n '\n' ++ s) = false →
    cnlAux s n = List.replicate n '\n' ++ s := by
  intro s
  induction s with
  | nil =>
    intro n h
    rw [cnlAux]
    have hn : ¬ 3 ≤ n := fun h3 => by
      rw [hasSub_nl3_replicate_ge3 h3] at h
      exact absurd h (by simp)
    rw [emitNl, if_neg hn]
    simp
  | cons c rest ih =>
    intro n h
    rw [cnlAux]
    by_cases hc : c = '\n'
    · rw [if_pos hc]
      subst hc
      have hrepl : List.replicate (n + 1) '\n' ++ rest
          = List.replicate n '\n' ++ '\n' :: rest := by
        rw [List.replicate_succ']
        simp
      rw [ih (n + 1) (by rw [hrepl]; exact h), hrepl]
    · rw [if_neg hc]
      have hn : ¬ 3 ≤ n := fun h3 => by
        rw [hasSub_nl3_replicate_ge3 h3] at h
        exact absurd h (by simp)
      have hrest : hasSub nl3 rest = false := by
        cases hr : hasSub nl3 rest with
        | false => rfl
        | true =>
          have h1 : hasSub nl3 (c :: rest) = true := by
            rw [hasSub_cons, hr, Bool.or_true]
          rw [hasSub_append_right _ h1] at h
          exact absurd h (by simp)
      rw [emitNl, if_neg hn, ih 0 (by simpa using hrest)]
      simp

/-- On a string with no `\n\n\n`, the newline-collapsing pass is the
identity. -/
theorem cnl_id {s : Str} (h : hasSub nl3 s = false) : collapseNl s = s := by
  unfold collapseNl
  rw [cnl_id_aux s 0 (by simpa using h)]
  rfl

theorem emitSp_eq_replicate (n : Nat) :
    ∃ m, m ≤ 1 ∧ emitSp n = List.replicate m ' ' := by
  by_cases h2 : 2 ≤ n
  · exact ⟨1, by omega, by rw [emitSp, if_pos h2]; rfl⟩
  · exact ⟨n, by omega, by rw [emitSp, if_neg h2]⟩

theorem hasSub_sp2_replicate_le1 {m : Nat} (hm : m ≤ 1) :
    hasSub sp2 (List.replicate m ' ') = false := by
  interval_cases m <;> decide

theorem no_dbl_glue {c : Char} {X : Str} (hc : ¬ c = ' ')
    (hX : hasSub sp2 X = false) :
    ∀ m, m ≤ 1 → hasSub sp2 (List.replicate m ' ' ++ c :: X) = false := by
  intro m hm
  have hcb : (' ' == c) = false := beq_eq_false_iff_ne.mpr (Ne.symm hc)
  interval_cases m <;>
    simpa [List.replicate, hasSub_cons, sp2, List.isPrefixOf, hcb] using hX

/-- The output of the space-collapsing pass contains no double space. -/
theorem csp_no_dbl : ∀ (s : Str) (n : Nat), hasSub sp2 (cspAux s n) = false := by
  intro s
  induction s with
  | nil =>
    intro n
    rw [cspAux]
    obtain ⟨m, hm, he⟩ := emitSp_eq_replicate n
    rw [he]
    exact hasSub_sp2_replicate_le1 hm
  | cons c rest ih =>
    intro n
    rw [cspAux]
    by_cases hc : c = ' '
    · rw [if_pos hc]
      exact ih (n + 1)
    · rw [if_neg hc]
      obtain ⟨m, hm, he⟩ := emitSp_eq_replicate n
      rw [he]
      exact no_dbl_glue hc (ih 0) m hm

theorem hasSub_sp2_replicate_ge2 {n : Nat} (h : 2 ≤ n) (s : Str) :
    hasSub sp2 (List.replicate n ' ' ++ s) = true := by
  obtain ⟨m, rfl⟩ : ∃ m, n = m + 2 := ⟨n - 2, by omega⟩
  have hrepl : List.replicate (m + 2) ' ' = ' ' :: ' ' :: List.replicate m ' ' := by
    rw [show m + 2 = 2 + m from by omega, List.replicate_add]
    rfl
  rw [hrepl, List.cons_append, List.cons_append, hasSub_cons, Bool.or_eq_true]
  left
  simp [sp2, List.isPrefixOf, isPrefixOf_nil_left_eq]

theorem csp_id_aux : ∀ (s : Str) (n : Nat),
    hasSub sp2 (List.replicate n ' ' ++ s) = false →
    cspAux s n = List.replicate n ' ' ++ s := by
  intro s
  induction s with
  | nil =>
    intro n h
    rw [cspAux]
    have hn : ¬ 2 ≤ n := fun h2 => by
      rw [hasSub_sp2_replicate_ge2 h2] at h
      exact absurd h (by simp)
    rw [emitSp, if_neg hn]
    simp
  | cons c rest ih =>
    intro n h
    rw [cspAux]
    by_cases hc : c = ' '
    · rw [if_pos hc]
      subst hc
      have hrepl : List.replicate (n + 1) ' ' ++ rest
          = List.replicate n ' ' ++ ' ' :: rest := by
        rw [List.replicate_succ']
        simp
      rw [ih (n + 1) (by rw [hrepl]; exact h), hrepl]
    · rw [if_neg hc]
      have hn : ¬ 2 ≤ n := fun h2 => by
        rw [hasSub_sp2_replicate_ge2 h2] at h
        exact absurd h (by simp)
      have hrest : hasSub sp2 rest = false := by
        cases hr : hasSub sp2 rest with
        | false => rfl
        | true =>
          have h1 : hasSub sp2 (c :: rest) = true := by
            rw [hasSub_cons, hr, Bool.or_true]
          rw [hasSub_append_right _ h1] at h
          exact absurd h (by simp)
      rw [emitSp, if_neg hn, ih 0 (by simpa using hrest)]
      simp

/-- On a string with no double space, the space-collapsing pass is the
identity. -/
theorem csp_id {s : Str} (h : hasSub sp2 s = false) : collapseSp s = s := by
  unfold collapseSp
  rw [csp_id_aux s 0 (by simpa using h)]
  rfl

theorem cspAux_head_pos : ∀ (s : Str) (n : Nat), 1 ≤ n →
    (cspAux s n).head? = some ' ' := by
  intro s
  induction s with
  | nil =>
    intro n hn
    rw [cspAux]
    obtain ⟨m, hm, he⟩ := emitSp_eq_replicate n
    rw [he]
    have hm1 : m = 1 := by
      rcases Nat.lt_or_ge n 2 with h2 | h2
      · rw [emitSp, if_neg (by omega)] at he
        have := congrArg List.length he
        simp at this
        omega
      · rw [emitSp, if_pos h2] at he
        have := congrArg List.length he
        simp at this
        omega
    rw [hm1]
    rfl
  | cons c rest ih =>
    intro n hn
    rw [cspAux]
    by_cases hc : c = ' '
    · rw [if_pos hc]
      exact ih (n + 1) (by omega)
    · rw [if_neg hc]
      obtain ⟨m, hm, he⟩ := emitSp_eq_replicate n
      have hm1 : m = 1 := by
        rcases Nat.lt_or_ge n 2 with h2 | h2
        · rw [emitSp, if_neg (by omega)] at he
          have := congrArg List.length he
          simp at this
          omega
        · rw [emitSp, if_pos h2] at he
          have := congrArg List.length he
          simp at this
          omega
      rw [he, hm1]
      rfl

theorem cspAux_head_zero : ∀ s : Str, (cspAux s 0).head? = s.head? := by
  intro s
  cases s with
  | nil => rfl
  | cons c rest =>
    rw [cspAux]
    by_cases hc : c = ' '
    · rw [if_pos hc, cspAux_head_pos rest 1 (by omega)]
      subst hc
      rfl
    · rw [if_neg hc]
      rfl

theorem ipf_single_head (a : Char) (X : Str) :
    ([a] : Str).isPrefixOf X =
      (match X.head? with | some x => a == x | none => false) := by
  cases X with
  | nil => rfl
  | cons x rest =>
    show (a == x && List.isPrefixOf ([] : Str) rest) = (a == x)
    rw [isPrefixOf_nil_left_eq, Bool.and_true]

theorem csp_pres_t2 (rest : Str) :
    (['\n', '\n'] : Str).isPrefixOf (cspAux rest 0)
      = (['\n', '\n'] : Str).isPrefixOf rest := by
  cases rest with
  | nil => rfl
  | cons c r2 =>
    rw [cspAux]
    by_cases hc : c = ' '
    · rw [if_pos hc]
      have hh := cspAux_head_pos r2 1 (by omega)
      cases hX : cspAux r2 1 with
      | nil => rw [hX] at hh; simp at hh
      | cons x t =>
        rw [hX] at hh
        simp only [List.head?_cons, Option.some.injEq] at hh
        subst hh
        subst hc
        show (('\n' == ' ') && _) = (('\n' == ' ') && _)
        simp
    · rw [if_neg hc]
      show (('\n' == c) && ([ '\n'] : Str).isPrefixOf (cspAux r2 0))
          = (('\n' == c) && ([ '\n'] : Str).isPrefixOf r2)
      rw [ipf_single_head, ipf_single_head, cspAux_head_zero]

/-- The space-collapsing pass preserves the absence of `\n\n\n`. -/
theorem csp_pres_no_triple : ∀ (s : Str) (n : Nat),
    hasSub nl3 s = false → hasSub nl3 (cspAux s n) = false := by
  intro s
  induction s with
  | nil =>
    intro n _
    rw [cspAux]
    obtain ⟨m, hm, he⟩ := emitSp_eq_replicate n
    rw [he]
    interval_cases m <;> decide
  | cons c rest ih =>
    intro n h
    have hrest : hasSub nl3 rest = false := by
      cases hr : hasSub nl3 rest with
      | false => rfl
      | true =>
        rw [hasSub_cons, hr, Bool.or_true] at h
        exact absurd h (by simp)
    rw [cspAux]
    by_cases hc : c = ' '
    · rw [if_pos hc]
      exact ih (n + 1) hrest
    · rw [if_neg hc]
      obtain ⟨m, hm, he⟩ := emitSp_eq_replicate n
      rw [he]
      have hcX : nl3.isPrefixOf (c :: cspAux rest 0) = false := by
        have hipf : nl3.isPrefixOf (c :: rest) = false := by
          cases hp : nl3.isPrefixOf (c :: rest) with
          | false => rfl
          | true =>
            rw [hasSub_cons, hp, Bool.true_or] at h
            exact absurd h (by simp)
        show (('\n' == c) && (['\n', '\n'] : Str).isPrefixOf (cspAux rest 0)) = false
        rw [csp_pres_t2]
        exact hipf
      have hX := ih 0 hrest
      interval_cases m
      · rw [List.replicate]
        simp only [List.nil_append, hasSub_cons, hcX, hX, Bool.or_false]
      · rw [show List.replicate 1 ' ' = [' '] from rfl]
        rw [List.cons_append, List.nil_append, hasSub_cons, hasSub_cons, hcX, hX]
        simp [nl3, List.isPrefixOf]

/-- C2 helper: the whitespace-normalization step is idempotent. -/
theorem wsNormalize_idem (s : Str) : wsNormalize (wsNormalize s) = wsNormalize s := by
  have h3 : hasSub nl3 (wsNormalize s) = false :=
    hasSub_strip_false (csp_pres_no_triple _ 0 (cnl_no_triple s 0))
  have h2 : hasSub sp2 (wsNormalize s) = false :=
    hasSub_strip_false (csp_no_dbl _ 0)
  have hstep : wsNormalize (wsNormalize s)
      = strip (collapseSp (collapseNl (wsNormalize s))) := rfl
  rw [hstep, cnl_id h3, csp_id h2]
  show strip (strip (collapseSp (collapseNl s))) = strip (collapseSp (collapseNl s))
  exact strip_strip _

/-! ### C2 — clean_text is not idempotent; each stage individually is -/

/-- A text whose second paragraph-filter pass differs: the page-marker stage
drops the short line "ab cd", leaving a 12-character paragraph that the
next clean's 15-character filter removes. -/
def c2Text : Str := lit "ab cd\nabcdefghijkl"

/-- C2 counterexample: `clean_text` is not idempotent — cleaning the cleaned
text again drops everything. -/
theorem clean_not_idempotent :
    cleanText c2Text = lit "abcdefghijkl" ∧
    cleanText (cleanText c2Text) = [] ∧
    cleanText (cleanText c2Text) ≠ cleanText c2Text := by
  refine ⟨by decide, by decide, by decide⟩

/-- C2 amended: each individual cleaning stage — unwanted-section removal,
paragraph filtering, page-marker removal, repeated-content removal, and
whitespace normalization — is idempotent, but their composition
`clean_text` is not (a second application can drop a paragraph that the
line-level page-marker filter shortened below the 15-character minimum). -/
theorem clean_stages_idempotent (s : Str) :
    removeUnwantedSections (removeUnwantedSections s) = removeUnwantedSections s ∧
    filterParagraphs (filterParagraphs s) = filterParagraphs s ∧
    removePageMarkers (removePageMarkers s) = removePageMarkers s ∧
    removeRepeatedContent (removeRepeatedContent s) = removeRepeatedContent s ∧
    wsNormalize (wsNormalize s) = wsNormalize s :=
  ⟨removeUnwantedSections_idem s, filterParagraphs_idem s, removePageMarkers_idem s,
    removeRepeatedContent_idem s, wsNormalize_idem s⟩

/-! ### C1 — chunk-size bound infrastructure -/

/-- The length of the longest stripped paragraph of a text. -/
def maxParaLen (text : Str) : Nat :=
  ((splitParas text).map (fun p => (strip p).length)).foldr max 0

/-- A paragraph as produced by `chunk_text`'s paragraph list: non-empty,
already stripped, separator-free, of length at most `L`. -/
def NiceP (L : Nat) (p : Str) : Prop :=
  p ≠ [] ∧ strip p = p ∧ hasSub nlnl p = false ∧ p.length ≤ L

/-- Well-formed accumulation buffer: empty, or shorter than the hard
maximum and a separator-join of nice paragraphs. -/
def BufOK (L : Nat) (cur : Str) : Prop :=
  cur = [] ∨ (cur.length < maxChunkSize ∧
    ∃ ps, ps ≠ [] ∧ (∀ p ∈ ps, NiceP L p) ∧ cur = joinParas ps)

/-- Chunk invariant: bounded content that is a separator-join of nice
paragraphs. -/
def ChunkOK (L : Nat) (c : Chunk) : Prop :=
  c.content.length ≤ maxChunkSize + 1 + L ∧
  ∃ ps, ps ≠ [] ∧ (∀ p ∈ ps, NiceP L p) ∧ c.content = joinParas ps

theorem le_foldr_max {l : List Nat} {x : Nat} (hx : x ∈ l) : x ≤ l.foldr max 0 := by
  induction l with
  | nil => simp at hx
  | cons a t ih =>
    rcases List.mem_cons.mp hx with hx | hx
    · subst hx; exact le_max_left _ _
    · exact le_trans (ih hx) (le_max_right _ _)

theorem strip_length_le_maxParaLen {text q : Str} (hq : q ∈ splitParas text) :
    (strip q).length ≤ maxParaLen text :=
  le_foldr_max (List.mem_map_of_mem _ hq)

theorem niceP_head {L : Nat} {p : Str} (h : NiceP L p) :
    ∀ c, p.head? = some c → isWS c = false := by
  intro c hc
  exact strip_head? (by rw [h.2.1]; exact hc)

theorem niceP_getLast {L : Nat} {p : Str} (h : NiceP L p) :
    ∀ c, p.getLast? = some c → isWS c = false := by
  intro c hc
  exact strip_getLast? (by rw [h.2.1]; exact hc)

theorem joinParas_ne_nil {ps : List Str} (hne : ps ≠ [])
    (h : ∀ p ∈ ps, p ≠ []) : joinParas ps ≠ [] := by
  cases ps with
  | nil => exact absurd rfl hne
  | cons p t =>
    cases t with
    | nil => exact h p (List.mem_cons_self _ _)
    | cons q u =>
      rw [joinParas_cons (by simp)]
      exact List.append_ne_nil_of_left_ne_nil
        (List.append_ne_nil_of_left_ne_nil (h p (List.mem_cons_self _ _)) nlnl) _

theorem joinParas_head? {ps : List Str} (hne : ps ≠ []) (h : ∀ p ∈ ps, p ≠ []) :
    ∀ c, (joinParas ps).head? = some c → ∃ p ∈ ps, p.head? = some c := by
  cases ps with
  | nil => exact absurd rfl hne
  | cons p t =>
    intro c hc
    cases t with
    | nil => exact ⟨p, List.mem_cons_self _ _, hc⟩
    | cons q u =>
      rw [joinParas_cons (by simp),
        List.head?_append_of_ne_nil _
          (List.append_ne_nil_of_left_ne_nil (h p (List.mem_cons_self _ _)) nlnl),
        List.head?_append_of_ne_nil _ (h p (List.mem_cons_self _ _))] at hc
      exact ⟨p, List.mem_cons_self _ _, hc⟩

theorem joinParas_getLast? : ∀ {ps : List Str}, ps ≠ [] → (∀ p ∈ ps, p ≠ []) →
    ∀ c, (joinParas ps).getLast? = some c → ∃ p ∈ ps, p.getLast? = some c := by
  intro ps
  induction ps with
  | nil => intro hne; exact absurd rfl hne
  | cons p t ih =>
    intro _ h c hc
    cases t with
    | nil => exact ⟨p, List.mem_cons_self _ _, hc⟩
    | cons q u =>
      rw [joinParas_cons (by simp),
        List.getLast?_append_of_ne_nil _
          (joinParas_ne_nil (by simp) (fun r hr => h r (List.mem_cons_of_mem _ hr)))] at hc
      obtain ⟨r, hrmem, hr⟩ := ih (by simp)
        (fun r hr => h r (List.mem_cons_of_mem _ hr)) c hc
      exact ⟨r, List.mem_cons_of_mem _ hrmem, hr⟩

/-- A separator-join of nice paragraphs is already stripped. -/
theorem strip_joinParas {L : Nat} {ps : List Str} (hne : ps ≠ [])
    (h : ∀ p ∈ ps, NiceP L p) : strip (joinParas ps) = joinParas ps := by
  have hne' : ∀ p ∈ ps, p ≠ [] := fun p hp => (h p hp).1
  apply strip_eq_self
  · intro c hc
    obtain ⟨p, hpmem, hp⟩ := joinParas_head? hne hne' c hc
    exact niceP_head (h p hpmem) c hp
  · intro c hc
    obtain ⟨p, hpmem, hp⟩ := joinParas_getLast? hne hne' c hc
    exact niceP_getLast (h p hpmem) c hp

theorem joinParas_append_one : ∀ {ps : List Str}, ps ≠ [] → ∀ (p : Str),
    joinParas (ps ++ [p]) = joinParas ps ++ nlnl ++ p := by
  intro ps
  induction ps with
  | nil => intro hne; exact absurd rfl hne
  | cons q t ih =>
    intro _ p
    cases t with
    | nil => rfl
    | cons r u =>
      have h1 : joinParas ((q :: r :: u) ++ [p])
          = q ++ nlnl ++ joinParas ((r :: u) ++ [p]) := by
        rw [List.cons_append, joinParas_cons (by simp)]
      rw [h1, ih (by simp) p,
        show joinParas (q :: r :: u) = q ++ nlnl ++ joinParas (r :: u) from
          joinParas_cons (by simp)]
      simp [List.append_assoc]

theorem splitParas_joinParas_nice {L : Nat} {ps : List Str} (hne : ps ≠ [])
    (h : ∀ p ∈ ps, NiceP L p) : splitParas (joinParas ps) = ps := by
  apply splitParas_joinParas hne (fun p hp => (h p hp).2.2.1)
  intro p hp
  intro hc
  have hmem : p ∈ ps := (List.dropLast_sublist ps).subset hp
  have := niceP_getLast (h p hmem) '\n' hc
  simp [isWS] at this

theorem map_strip_id {ps : List Str} (h : ∀ p ∈ ps, strip p = p) :
    ps.map strip = ps := by
  induction ps with
  | nil => rfl
  | cons p t ih =>
    rw [List.map_cons, h p (List.mem_cons_self _ _),
      ih (fun q hq => h q (List.mem_cons_of_mem _ hq))]

/-- The paragraph list of `chunk_text` consists of nice paragraphs. -/
theorem chunkParas_nice (text : Str) :
    ∀ p ∈ chunkParas text, NiceP (maxParaLen text) p := by
  intro p hp
  unfold chunkParas at hp
  obtain ⟨q, hq, rfl⟩ := List.mem_map.mp hp
  have hqmem : q ∈ splitParas text := (List.mem_filter.mp hq).1
  have hqne : strip q ≠ [] := by
    have := (List.mem_filter.mp hq).2
    simpa using this
  exact ⟨hqne, strip_strip q,
    hasSub_strip_false (splitParas_no_sep q hqmem),
    strip_length_le_maxParaLen hqmem⟩

/-- The paragraph re-split performed by `_force_split_large_chunks` on a
well-formed chunk recovers its paragraphs. -/
theorem chunkParas_joinParas {L : Nat} {ps : List Str} (hne : ps ≠ [])
    (h : ∀ p ∈ ps, NiceP L p) : chunkParas (joinParas ps) = ps := by
  unfold chunkParas
  rw [splitParas_joinParas_nice hne h,
    List.filter_eq_self.mpr (fun p hp => by
      have := (h p hp).1
      rw [(h p hp).2.1]
      simpa using this),
    map_strip_id (fun p hp => (h p hp).2.1)]

/-- Invariant propagation through the main loop of `chunk_text`: under the
buffer and paragraph invariants, every produced chunk satisfies `ChunkOK`. -/
theorem chunkLoop_bound (L : Nat) (cat : Str) :
    ∀ (paras : List Str) (cur title : Str) (chunks : List Chunk),
      (∀ p ∈ paras, NiceP L p) → BufOK L cur → (∀ c ∈ chunks, ChunkOK L c) →
      ∀ c ∈ chunkLoop cat paras cur title chunks, ChunkOK L c := by
  intro paras
  induction paras with
  | nil =>
    intro cur title chunks _ hbuf hchunks c hc
    rw [chunkLoop] at hc
    by_cases hemit : (strip cur ≠ [] && minChunkSize * 2 / 5 ≤ cur.length) = true
    · rw [if_pos hemit] at hc
      rcases List.mem_append.mp hc with hc | hc
      · exact hchunks c hc
      · rcases List.mem_singleton.mp hc with rfl
        rcases hbuf with rfl | ⟨hlen, ps, hpsne, hps, rfl⟩
        · simp only [Bool.and_eq_true, decide_eq_true_eq] at hemit
          exact absurd rfl hemit.1
        · refine ⟨?_, ps, hpsne, hps, strip_joinParas hpsne hps⟩
          show (strip (joinParas ps)).length ≤ maxChunkSize + 1 + L
          calc (strip (joinParas ps)).length ≤ (joinParas ps).length := strip_length_le _
            _ ≤ maxChunkSize + 1 + L := by omega
    · rw [if_neg hemit] at hc
      simp only [List.append_nil] at hc
      exact hchunks c hc
  | cons para rest ih =>
    intro cur title chunks hparas hbuf hchunks c hc
    have hpara : NiceP L para := hparas para (List.mem_cons_self _ _)
    have hrest : ∀ p ∈ rest, NiceP L p := fun p hp => hparas p (List.mem_cons_of_mem _ hp)
    rw [chunkLoop] at hc
    by_cases hhdr : isSectionHeader para = true
    · rw [if_pos hhdr] at hc
      by_cases hemit : (strip cur ≠ [] && minChunkSize / 2 ≤ cur.length) = true
      · rw [if_pos hemit, if_pos hemit] at hc
        refine ih [] (strip (para.take 100))
          (chunks ++ [⟨title, strip cur, cat⟩]) hrest (Or.inl rfl) ?_ c hc
        intro d hd
        rcases List.mem_append.mp hd with hd | hd
        · exact hchunks d hd
        · rcases List.mem_singleton.mp hd with rfl
          rcases hbuf with rfl | ⟨hlen, ps, hpsne, hps, rfl⟩
          · simp only [Bool.and_eq_true, decide_eq_true_eq] at hemit
            exact absurd rfl hemit.1
          · refine ⟨?_, ps, hpsne, hps, strip_joinParas hpsne hps⟩
            show (strip (joinParas ps)).length ≤ maxChunkSize + 1 + L
            calc (strip (joinParas ps)).length ≤ (joinParas ps).length := strip_length_le _
              _ ≤ maxChunkSize + 1 + L := by omega
      · rw [if_neg hemit, if_neg hemit] at hc
        simp only [List.append_nil] at hc
        exact ih cur (strip (para.take 100)) chunks hrest hbuf hchunks c hc
    · rw [if_neg hhdr] at hc
      have hbuf' : (chunkBufAppend cur para).length ≤ maxChunkSize + 1 + L ∧
          ∃ ps, ps ≠ [] ∧ (∀ p ∈ ps, NiceP L p) ∧ chunkBufAppend cur para = joinParas ps := by
        unfold chunkBufAppend
        by_cases hcne : cur ≠ []
        · rw [if_pos hcne]
          rcases hbuf with rfl | ⟨hlen, ps, hpsne, hps, rfl⟩
          · exact absurd rfl hcne
          · refine ⟨?_, ps ++ [para], by simp, ?_,
              (joinParas_append_one hpsne para).symm⟩
            · have h1 : (joinParas ps ++ nlnl ++ para).length
                  = (joinParas ps).length + 2 + para.length := by
                simp [nlnl]
                omega
              rw [h1]
              have := hpara.2.2.2
              unfold maxChunkSize at *
              omega
            · intro p hp
              rcases List.mem_append.mp hp with hp | hp
              · exact hps p hp
              · rcases List.mem_singleton.mp hp with rfl
                exact hpara
        · rw [if_neg hcne]
          refine ⟨?_, [para], by simp, by simpa using hpara, rfl⟩
          have := hpara.2.2.2
          unfold maxChunkSize
          omega
      obtain ⟨hblen, bps, hbpsne, hbps, hbeq⟩ := hbuf'
      by_cases hsplit : chunkShouldSplit (chunkBufAppend cur para) para rest = true
      · rw [if_pos hsplit] at hc
        refine ih [] title _ hrest (Or.inl rfl) ?_ c hc
        intro d hd
        rcases List.mem_append.mp hd with hd | hd
        · exact hchunks d hd
        · rcases List.mem_singleton.mp hd with rfl
          refine ⟨?_, bps, hbpsne, hbps, ?_⟩
          · show (strip (chunkBufAppend cur para)).length ≤ maxChunkSize + 1 + L
            calc (strip (chunkBufAppend cur para)).length
                ≤ (chunkBufAppend cur para).length := strip_length_le _
              _ ≤ maxChunkSize + 1 + L := hblen
          · show strip (chunkBufAppend cur para) = joinParas bps
            rw [hbeq, strip_joinParas hbpsne hbps]
      · rw [if_neg hsplit] at hc
        have hlt : (chunkBufAppend cur para).length < maxChunkSize := by
          by_contra hge
          apply hsplit
          unfold chunkShouldSplit
          rw [if_pos (by omega)]
        exact ih (chunkBufAppend cur para) title chunks hrest
          (Or.inr ⟨hlt, bps, hbpsne, hbps, hbeq⟩) hchunks c hc

/-- Every chunk emitted by the inner loop of `_force_split_large_chunks` has
content of length at most `targetChunkSize + 1 + L`, where `L` bounds the
paragraph lengths. -/
theorem fsLoop_bound (L : Nat) (cat title : Str) :
    ∀ (paras : List Str) (sub : Str) (n : Nat),
      (∀ p ∈ paras, p.length ≤ L) →
      (sub = [] ∨ sub.length < targetChunkSize) →
      ∀ c ∈ fsLoop cat title paras sub n,
        c.content.length ≤ targetChunkSize + 1 + L := by
  intro paras
  induction paras with
  | nil =>
    intro sub n _ hsub c hc
    rw [fsLoop] at hc
    by_cases hne : strip sub ≠ []
    · rw [if_pos hne] at hc
      rcases List.mem_singleton.mp hc with rfl
      show (strip sub).length ≤ targetChunkSize + 1 + L
      rcases hsub with rfl | hlen
      · exact absurd rfl hne
      · calc (strip sub).length ≤ sub.length := strip_length_le _
          _ ≤ targetChunkSize + 1 + L := by omega
    · rw [if_neg hne] at hc
      simp at hc
  | cons p rest ih =>
    intro sub n hps hsub c hc
    rw [fsLoop] at hc
    have hb : (chunkBufAppend sub p).length ≤ targetChunkSize + 1 + L := by
      unfold chunkBufAppend
      have hpL : p.length ≤ L := hps p (List.mem_cons_self _ _)
      by_cases hne : sub ≠ []
      · rw [if_pos hne]
        rcases hsub with rfl | hlen
        · exact absurd rfl hne
        · have h1 : (sub ++ nlnl ++ p).length = sub.length + 2 + p.length := by
            simp [nlnl]
            omega
          rw [h1]
          omega
      · rw [if_neg hne]
        omega
    have hrest : ∀ q ∈ rest, q.length ≤ L :=
      fun q hq => hps q (List.mem_cons_of_mem _ hq)
    by_cases hts : targetChunkSize ≤ (chunkBufAppend sub p).length
    · rw [if_pos hts] at hc
      rcases List.mem_cons.mp hc with rfl | hc
      · show (strip (chunkBufAppend sub p)).length ≤ targetChunkSize + 1 + L
        calc (strip (chunkBufAppend sub p)).length
            ≤ (chunkBufAppend sub p).length := strip_length_le _
          _ ≤ targetChunkSize + 1 + L := hb
      · exact ih [] (n + 1) hrest (Or.inl rfl) c hc
    · rw [if_neg hts] at hc
      exact ih (chunkBufAppend sub p) n hrest (Or.inr (by omega)) c hc

/-- The forced-split post-pass keeps every chunk within
`maxChunkSize + 1 + L` when each input chunk satisfies `ChunkOK L`. -/
theorem forceSplitLargeChunks_bound (L : Nat) (cat : Str) {chunks : List Chunk}
    (h : ∀ c ∈ chunks, ChunkOK L c) :
    ∀ c ∈ forceSplitLargeChunks chunks cat,
      c.content.length ≤ maxChunkSize + 1 + L := by
  intro c hc
  unfold forceSplitLargeChunks at hc
  obtain ⟨d, hd, hcd⟩ := List.mem_flatMap.mp hc
  by_cases hlen : d.content.length ≤ maxChunkSize
  · rw [if_pos hlen] at hcd
    rcases List.mem_singleton.mp hcd with rfl
    omega
  · rw [if_neg hlen] at hcd
    obtain ⟨hdl, ps, hne, hps, hdps⟩ := h d hd
    rw [hdps, chunkParas_joinParas hne hps] at hcd
    have := fsLoop_bound L cat d.title ps [] 1
      (fun p hp => (hps p hp).2.2.2) (Or.inl rfl) c hcd
    unfold targetChunkSize maxChunkSize at *
    omega

/-- C1 amended: every chunk produced by `chunk_text` — before and after the
conditional forced-split pass — has content of length at most
`max_chunk_size + 1 + maxParaLen text` (the hard cap can be exceeded by at
most one buffer extension: two newline characters minus the one spare byte,
plus one stripped paragraph); the claimed absolute `max_chunk_size` bound
fails both before and after the forced-split pass (`chunk_exceeds_max`). -/
theorem chunkText_bound (text cat : Str) :
    ∀ c ∈ chunkText text cat,
      c.content.length ≤ maxChunkSize + 1 + maxParaLen text := by
  intro c hc
  have hmain : ∀ d ∈ chunkTextMain text cat, ChunkOK (maxParaLen text) d := by
    intro d hd
    exact chunkLoop_bound (maxParaLen text) cat (chunkParas text) [] defaultTitle []
      (chunkParas_nice text) (Or.inl rfl) (by intro x hx; simp at hx) d hd
  unfold chunkText at hc
  by_cases hcond : ((chunkTextMain text cat).length ≤ 2 &&
      2000 < ((chunkTextMain text cat).map (fun c => c.content.length)).sum : Bool) = true
  · rw [if_pos hcond] at hc
    exact forceSplitLargeChunks_bound (maxParaLen text) cat hmain c hc
  · rw [if_neg hcond] at hc
    exact (hmain c hc).1

/-- An ordinary 88-character cleaned text: one paragraph, no headers. -/
def c1wText : Str :=
  lit "aaaa aaa aa aaaaa aaa aaaaaa aaaa aaa aaaaaaa aaaa aaaaa aaaa aaaa aaa aaaaaa aaaaa aaaa"

theorem chunkText_bound_witness :
    (⟨defaultTitle, c1wText, lit "general"⟩ : Chunk) ∈ chunkText c1wText (lit "general") ∧
    (Chunk.mk defaultTitle c1wText (lit "general")).content.length
      ≤ maxChunkSize + 1 + maxParaLen c1wText :=
  ⟨by decide, chunkText_bound c1wText (lit "general")
    ⟨defaultTitle, c1wText, lit "general"⟩ (by decide)⟩

/-! ### C1 — counterexample infrastructure: evaluation on replicated text -/

theorem hasSub_nlnl_replicate (c : Char) (hc : ¬ c = '\n') :
    ∀ n, hasSub nlnl (List.replicate n c) = false := by
  intro n
  induction n with
  | zero => rfl
  | succ m ih =>
    rw [List.replicate_succ, hasSub_cons, ih, Bool.or_false]
    cases m with
    | zero => exact isPrefixOf_nlnl_single c
    | succ k =>
      rw [List.replicate_succ, isPrefixOf_nlnl_cons2]
      simp [hc]

theorem replicate_head?_eq {c d : Char} {n : Nat}
    (h : (List.replicate n c).head? = some d) : d = c := by
  cases n with
  | zero => simp at h
  | succ m =>
    rw [List.replicate_succ, List.head?_cons] at h
    exact (Option.some.inj h).symm

theorem replicate_getLast?_eq {c d : Char} {n : Nat}
    (h : (List.replicate n c).getLast? = some d) : d = c := by
  rw [← List.head?_reverse, List.reverse_replicate] at h
  exact replicate_head?_eq h

theorem strip_replicate (c : Char) (hws : isWS c = false) (n : Nat) :
    strip (List.replicate n c) = List.replicate n c := by
  apply strip_eq_self
  · intro d hd
    rw [replicate_head?_eq hd]
    exact hws
  · intro d hd
    rw [replicate_getLast?_eq hd]
    exact hws

theorem getLast?_replicate_ne_nl (c : Char) (hc : ¬ c = '\n') (n : Nat) :
    (List.replicate n c).getLast? ≠ some '\n' := by
  intro h
  exact hc (replicate_getLast?_eq h).symm

theorem replicate_ne_nil_of_pos {α : Type} (c : α) (n : Nat) (hn : 0 < n) :
    List.replicate n c ≠ [] := by
  intro h
  have := congrArg List.length h
  rw [List.length_replicate] at this
  simp at this
  omega

theorem takeWhile_replicate_neg {c : Char} {p : Char → Bool} (h : p c = false) :
    ∀ n, (List.replicate n c).takeWhile p = [] := by
  intro n
  cases n with
  | zero => rfl
  | succ m => simp [List.replicate_succ, List.takeWhile_cons, h]

theorem matchDigitsDotCap_replicate {c : Char} (hd : c.isDigit = false)
    (ci : Bool) (n : Nat) : matchDigitsDotCap ci (List.replicate n c) = false := by
  unfold matchDigitsDotCap
  rw [takeWhile_replicate_neg hd]
  simp

theorem matchChapterPat_replicate {c : Char} (hd : c.isDigit = false)
    {n : Nat} (hn : 7 ≤ n) : matchChapterPat (List.replicate n c) = false := by
  have hne : ¬ (lowerStr ((List.replicate n c).take (lit "chapter").length)
      = lit "chapter") := by
    intro h
    rw [show (lit "chapter").length = 7 from rfl, List.take_replicate,
      Nat.min_eq_left hn] at h
    rw [show lowerStr (List.replicate 7 c) = List.replicate 7 c.toLower by
      simp [lowerStr, List.map_replicate]] at h
    rw [show lit "chapter" = ['c', 'h', 'a', 'p', 't', 'e', 'r'] from rfl] at h
    rw [show List.replicate 7 c.toLower
        = [c.toLower, c.toLower, c.toLower, c.toLower, c.toLower, c.toLower,
           c.toLower] from rfl] at h
    simp at h
    obtain ⟨h1, h2, -⟩ := h
    rw [h1] at h2
    exact absurd h2 (by decide)
  have hci : eatCI (lit "chapter") (List.replicate n c) = none := by
    unfold eatCI
    rw [if_neg hne]
  unfold matchChapterPat
  rw [hci]
  simp [matchDigitsDotCap_replicate hd]

theorem matchSecNumPat_replicate {c : Char} (hd : c.isDigit = false) (n : Nat) :
    matchSecNumPat (List.replicate n c) = false := by
  unfold matchSecNumPat
  rw [takeWhile_replicate_neg hd]
  simp

/-- A long run of a single non-whitespace, non-digit character is never a
section header: all four header patterns fail on it. -/
theorem isSectionHeader_replicate (c : Char) (hws : isWS c = false)
    (hdg : c.isDigit = false) (n : Nat) (hn : 100 ≤ n) :
    isSectionHeader (List.replicate n c) = false := by
  unfold isSectionHeader
  rw [strip_replicate c hws]
  have hlt : decide ((List.replicate n c).length < 100) = false := by
    simp only [List.length_replicate, decide_eq_false_iff_not]
    omega
  simp only [hlt, matchChapterPat_replicate hdg (show 7 ≤ n by omega),
    matchSecNumPat_replicate hdg n, Bool.false_and, Bool.false_or, Bool.or_false]

/-- A 900-character paragraph followed by a 100-character paragraph. -/
def c1TextA : Str := List.replicate 900 'a' ++ nlnl ++ List.replicate 100 'b'

/-- A single 2100-character paragraph. -/
def c1TextB : Str := List.replicate 2100 'a'

theorem splitParas_c1A :
    splitParas c1TextA = [List.replicate 900 'a', List.replicate 100 'b'] := by
  unfold c1TextA
  rw [splitParas_glue (hasSub_nlnl_replicate 'a' (by decide) 900)
      (getLast?_replicate_ne_nl 'a' (by decide) 900),
    splitParas_single (hasSub_nlnl_replicate 'b' (by decide) 100)]

/-- Both paragraphs of `c1TextA` are nice with respect to the bound 900. -/
theorem niceP_c1A :
    ∀ p ∈ ([List.replicate 900 'a', List.replicate 100 'b'] : List Str),
      NiceP 900 p := by
  intro p hp
  rcases List.mem_cons.mp hp with rfl | hp
  · exact ⟨replicate_ne_nil_of_pos 'a' 900 (by omega),
      strip_replicate 'a' (by decide) 900,
      hasSub_nlnl_replicate 'a' (by decide) 900,
      by rw [List.length_replicate]⟩
  rcases List.mem_cons.mp hp with rfl | hp
  · exact ⟨replicate_ne_nil_of_pos 'b' 100 (by omega),
      strip_replicate 'b' (by decide) 100,
      hasSub_nlnl_replicate 'b' (by decide) 100,
      by rw [List.length_replicate]; omega⟩
  · simp at hp

theorem chunkParas_c1A :
    chunkParas c1TextA = [List.replicate 900 'a', List.replicate 100 'b'] := by
  show chunkParas (joinParas [List.replicate 900 'a', List.replicate 100 'b'])
    = [List.replicate 900 'a', List.replicate 100 'b']
  exact chunkParas_joinParas (by simp) niceP_c1A

theorem niceP_repl2100 :
    ∀ p ∈ ([List.replicate 2100 'a'] : List Str), NiceP 2100 p := by
  intro p hp
  rcases List.mem_cons.mp hp with rfl | hp
  · exact ⟨replicate_ne_nil_of_pos 'a' 2100 (by omega),
      strip_replicate 'a' (by decide) 2100,
      hasSub_nlnl_replicate 'a' (by decide) 2100,
      by rw [List.length_replicate]⟩
  · simp at hp

theorem chunkParas_repl2100 :
    chunkParas (List.replicate 2100 'a') = [List.replicate 2100 'a'] := by
  show chunkParas (joinParas [List.replicate 2100 'a']) = [List.replicate 2100 'a']
  exact chunkParas_joinParas (by simp) niceP_repl2100

theorem chunkTextMain_c1A (cat : Str) :
    chunkTextMain c1TextA cat
      = [⟨defaultTitle, List.replicate 900 'a', cat⟩,
         ⟨defaultTitle, List.replicate 100 'b', cat⟩] := by
  have hha : isSectionHeader (List.replicate 900 'a') = false :=
    isSectionHeader_replicate 'a' (by decide) (by decide) 900 (by omega)
  have hhb : isSectionHeader (List.replicate 100 'b') = false :=
    isSectionHeader_replicate 'b' (by decide) (by decide) 100 (by omega)
  have ha : strip (List.replicate 900 'a') = List.replicate 900 'a' :=
    strip_replicate 'a' (by decide) 900
  have hb : strip (List.replicate 100 'b') = List.replicate 100 'b' :=
    strip_replicate 'b' (by decide) 100
  have hsplitA : chunkShouldSplit (List.replicate 900 'a') (List.replicate 900 'a')
      [List.replicate 100 'b'] = true := by
    unfold chunkShouldSplit
    rw [if_pos]
    rw [List.length_replicate]
    decide
  have hsplitB : chunkShouldSplit (List.replicate 100 'b') (List.replicate 100 'b')
      [] = false := by
    unfold chunkShouldSplit
    rw [List.length_replicate]
    rw [if_neg (by decide), if_neg (by decide), if_neg (by decide)]
  unfold chunkTextMain
  rw [chunkParas_c1A]
  rw [chunkLoop, if_neg (by rw [hha]; simp)]
  rw [show chunkBufAppend [] (List.replicate 900 'a') = List.replicate 900 'a' from rfl]
  rw [if_pos (by rw [hsplitA])]
  rw [ha, List.nil_append]
  rw [chunkLoop, if_neg (by rw [hhb]; simp)]
  rw [show chunkBufAppend [] (List.replicate 100 'b') = List.replicate 100 'b' from rfl]
  rw [if_neg (by rw [hsplitB]; simp)]
  rw [chunkLoop]
  rw [hb]
  rw [if_pos (by rw [List.length_replicate]; decide)]
  rfl

/-- On `c1TextA` the forced-split condition fails (two chunks, total length
1000 ≤ 2000), so `chunk_text` returns the main-loop output unchanged. -/
theorem chunkText_c1A (cat : Str) :
    chunkText c1TextA cat = chunkTextMain c1TextA cat := by
  have hsum : ¬ (((chunkTextMain c1TextA cat).length ≤ 2 &&
      2000 < ((chunkTextMain c1TextA cat).map (fun c => c.content.length)).sum
      : Bool) = true) := by
    rw [chunkTextMain_c1A]
    intro h
    simp only [Bool.and_eq_true, decide_eq_true_eq] at h
    have h2 := h.2
    simp only [List.map_cons, List.map_nil, List.sum_cons, List.sum_nil,
      List.length_replicate] at h2
    omega
  unfold chunkText
  rw [if_neg hsum]

theorem chunkTextMain_c1B (cat : Str) :
    chunkTextMain c1TextB cat = [⟨defaultTitle, List.replicate 2100 'a', cat⟩] := by
  have hha : isSectionHeader (List.replicate 2100 'a') = false :=
    isSectionHeader_replicate 'a' (by decide) (by decide) 2100 (by omega)
  have ha : strip (List.replicate 2100 'a') = List.replicate 2100 'a' :=
    strip_replicate 'a' (by decide) 2100
  have hsplit : chunkShouldSplit (List.replicate 2100 'a') (List.replicate 2100 'a')
      [] = true := by
    unfold chunkShouldSplit
    rw [if_pos]
    rw [List.length_replicate]
    decide
  unfold chunkTextMain c1TextB
  rw [chunkParas_repl2100]
  rw [chunkLoop, if_neg (by rw [hha]; simp)]
  rw [show chunkBufAppend [] (List.replicate 2100 'a') = List.replicate 2100 'a'
    from rfl]
  rw [if_pos (by rw [hsplit])]
  rw [ha, List.nil_append]
  rw [chunkLoop, if_neg (by decide)]
  rfl

/-- On `c1TextB` the forced-split condition holds (one chunk of total length
2100 > 2000), the pass runs, re-splits the single 2100-character paragraph —
and emits it whole again. -/
theorem chunkText_c1B (cat : Str) :
    chunkText c1TextB cat = [⟨defaultTitle, List.replicate 2100 'a', cat⟩] := by
  have hcond : (((chunkTextMain c1TextB cat).length ≤ 2 &&
      2000 < ((chunkTextMain c1TextB cat).map (fun c => c.content.length)).sum
      : Bool)) = true := by
    rw [chunkTextMain_c1B]
    simp only [Bool.and_eq_true, decide_eq_true_eq]
    constructor
    · simp
    · simp only [List.map_cons, List.map_nil, List.sum_cons, List.sum_nil,
        List.length_replicate]
      omega
  unfold chunkText
  rw [if_pos hcond, chunkTextMain_c1B]
  unfold forceSplitLargeChunks
  simp only [List.flatMap_cons, List.flatMap_nil, List.append_nil]
  rw [if_neg (show ¬ ((List.replicate 2100 'a').length ≤ maxChunkSize) by
    rw [List.length_replicate]; decide)]
  rw [chunkParas_repl2100]
  rw [fsLoop]
  rw [show chunkBufAppend [] (List.replicate 2100 'a') = List.replicate 2100 'a'
    from rfl]
  rw [if_pos (show targetChunkSize ≤ (List.replicate 2100 'a').length by
    rw [List.length_replicate]; decide)]
  rw [strip_replicate 'a' (by decide) 2100]
  rw [fsLoop]
  rw [if_neg (show ¬ (strip ([] : Str) ≠ []) from fun h => h rfl)]
  rfl

/-- C1 counterexample: on `c1TextA` (paragraphs of 900 and 100 characters)
the forced-split pass does not run and the first, non-final chunk has 900 >
`max_chunk_size` characters; on `c1TextB` (a single 2100-character paragraph)
the forced-split pass does run and the final output still contains a
2100-character chunk, because `_force_split_large_chunks` splits only at
paragraph boundaries and the oversized chunk is one paragraph. -/
theorem chunk_exceeds_max :
    (chunkText c1TextA (lit "general") = chunkTextMain c1TextA (lit "general")
      ∧ ∃ c ∈ (chunkText c1TextA (lit "general")).dropLast,
          maxChunkSize < c.content.length)
    ∧ ((chunkTextMain c1TextB (lit "general")).length ≤ 2
      ∧ 2000 < ((chunkTextMain c1TextB (lit "general")).map
          (fun c => c.content.length)).sum
      ∧ ∃ c ∈ chunkText c1TextB (lit "general"), maxChunkSize < c.content.length) := by
  refine ⟨⟨chunkText_c1A (lit "general"), ?_⟩, ?_, ?_, ?_⟩
  · rw [chunkText_c1A, chunkTextMain_c1A]
    refine ⟨⟨defaultTitle, List.replicate 900 'a', lit "general"⟩, ?_, ?_⟩
    · show _ ∈ [(⟨defaultTitle, List.replicate 900 'a', lit "general"⟩ : Chunk)]
      exact List.mem_cons_self _ _
    · show maxChunkSize < (List.replicate 900 'a').length
      rw [List.length_replicate]
      decide
  · rw [chunkTextMain_c1B]
    simp
  · rw [chunkTextMain_c1B]
    simp only [List.map_cons, List.map_nil, List.sum_cons, List.sum_nil,
      List.length_replicate]
    omega
  · rw [chunkText_c1B]
    refine ⟨⟨defaultTitle, List.replicate 2100 'a', lit "general"⟩,
      List.mem_cons_self _ _, ?_⟩
    show maxChunkSize < (List.replicate 2100 'a').length
    rw [List.length_replicate]
    decide
